import Mathlib

/-!
# The main-thread dispatcher of `MainThread.go`

A shallow embedding of the Go file `MainThread.go` (package `giu`): the relay
`transferTasks`, the executor loop of `Run`, the guard `checkRun` and the four
submission functions `CallNonBlock`, `Call`, `CallErr`, `CallVal`.

Goroutines become components of an explicit state; every channel operation of
the source is one labelled step, and a run is a list of labels chosen by the
scheduler.  User functions are opaque: their bodies begin and end, and the value
a body returns is supplied by the label that ends it.

Conventions of the model:

* all channels of the source are unbuffered, so a send and the matching receive
  are one step (`enqueue`, `handoff`, `deliver`);
* in `step` a `select` may commit to any of its cases whose communication is
  possible; no case has priority, in particular not `case <-done`;
* `stepSync` is `step` with the meeting rule of unbuffered channels added: the
  relay's send and the executor's receive on `tasks` cannot meet once `done` is
  closed.  Every run of `stepSync` is a run of `step`, so what is proved of the
  runs of `step` holds of both;
* an iteration of the relay (lines 22-39) is one step: the pop of lines 23-30
  touches only local variables;
* a receive and the statement after it are separate steps (line 63 and line 64);
* calling a nil function, and `checkRun` on a nil `callQueue`, panic; an
  unrecovered panic ends the process, so no step follows it;
* `Run` is called at most once; what the main goroutine does after `Run` returns
  is not modelled, the other goroutines go on.
-/

namespace MainThread

/-! ## Values of type `func()` -/

/-- A Go value of type `func()` as the dispatcher sees it.  The relay compares
such a value with `nil` and nothing else. -/
inductive Func where
  /-- the nil function value -/
  | nil : Func
  /-- the non-nil function that submission number `c` handed to `CallNonBlock` -/
  | plain (c : Nat) : Func
  /-- the closure that submission number `c` built in `Call`, `CallErr` or
  `CallVal` (lines 82-85, 93-95, 103-105) -/
  | wrap (c : Nat) : Func
  deriving DecidableEq, Repr

/-! ## Slices -/

/-- Go builtin `copy(dst, src)`: overwrites the first `min (len dst) (len src)`
elements of `dst` with those of `src` and leaves the rest of `dst` alone. -/
def goCopy {α : Type} (dst src : List α) : List α :=
  src.take dst.length ++ dst.drop src.length

/-- Lines 26-27: `copy(tasks[:], tasks[1:]); tasks = tasks[:len(tasks)-1]`. -/
def shiftOut {α : Type} (tasks : List α) : List α :=
  (goCopy tasks (tasks.drop 1)).take (tasks.length - 1)

/-! ## The relay `transferTasks` (lines 13-40) -/

/-- Local variables of `transferTasks`, its control state and two history
variables recording the channel traffic so far. -/
structure Relay where
  /-- line 15: `task`, the current task to transfer or `nil` -/
  task : Func
  /-- line 16: `tasks`, the local queue -/
  tasks : List Func
  /-- line 20: `tasksCh`; `false` is the nil channel, `true` is `to` -/
  tasksCh : Bool
  /-- the function has executed `return` (line 37) -/
  returned : Bool
  /-- history: the values sent on `to`, oldest first -/
  sent : List Func
  /-- history: the values received from `callQueue`, oldest first -/
  received : List Func
  deriving DecidableEq, Repr

/-- State on entry to `transferTasks`: zero values of the declared variables. -/
def Relay.init : Relay :=
  { task := Func.nil, tasks := [], tasksCh := false, returned := false,
    sent := [], received := [] }

/-- Lines 23-30: pop the head of the local queue when `task == nil`. -/
def Relay.pop (r : Relay) : Relay :=
  if r.task = Func.nil ∧ r.tasks.length > 0 then
    { r with task := r.tasks.headD Func.nil, tasks := shiftOut r.tasks, tasksCh := true }
  else r

/-- The communication a `select` of the relay (lines 31-38) commits to. -/
inductive RelayEvent where
  /-- line 32: `case f := <-callQueue` receives `f` -/
  | recv (f : Func) : RelayEvent
  /-- line 34: `case tasksCh <- task` is accepted by the executor -/
  | accept : RelayEvent
  /-- line 36: `case <-done` -/
  | shutdown : RelayEvent
  deriving DecidableEq, Repr

/-- Lines 31-38: the effect of each case of the `select`; `none` when the case
cannot be taken (a send on the nil channel is ignored by `select`). -/
def Relay.select (r : Relay) : RelayEvent → Option Relay
  | RelayEvent.recv f =>
      some { r with tasks := r.tasks ++ [f], received := r.received ++ [f] }
  | RelayEvent.accept =>
      if r.tasksCh then
        some { r with task := Func.nil, tasksCh := false, sent := r.sent ++ [r.task] }
      else none
  | RelayEvent.shutdown => some { r with returned := true }

/-- One iteration of the `for` loop (lines 22-39), from loop head to loop head. -/
def Relay.iter (r : Relay) (e : RelayEvent) : Option Relay :=
  if r.returned then none else r.pop.select e

/-- Lines 13-40: `transferTasks` from a given loop-head state, its loop iterated
along the events its `select` statements commit to. -/
def transferTasks : Relay → List RelayEvent → Option Relay
  | r, [] => some r
  | r, e :: es => (r.iter e).bind fun r1 => transferTasks r1 es

/-- The tasks an event list delivers on `callQueue`, in order. -/
def recvs : List RelayEvent → List Func
  | [] => []
  | RelayEvent.recv f :: es => f :: recvs es
  | _ :: es => recvs es

/-- The task currently offered to the executor, if any: `task` unless it is `nil`. -/
def Relay.offered (r : Relay) : List Func :=
  if r.task = Func.nil then [] else [r.task]

/-- The task the `select` would send: `task` when `tasksCh` is `to`. -/
def Relay.onWire (r : Relay) : List Func :=
  if r.tasksCh then [r.task] else []

/-! ## The submission functions, the executor loop and `Run` -/

/-- Line 7: the value `checkRun` panics with. -/
def notRunMsg : String := "mainthread: did not call Run"

/-- The Go runtime error raised by calling a nil function value. -/
def nilCallMsg : String := "runtime error: invalid memory address or nil pointer dereference"

/-- Lines 5-9: `checkRun`.  The argument is the global `callQueue`: `false` for
the nil channel, `true` once line 50 has made it. -/
def checkRun (callQueue : Bool) : Except String Unit :=
  if callQueue = false then Except.error notRunMsg else Except.ok ()

/-- The four submission functions. -/
inductive Kind where
  | CallNonBlock : Kind
  | Call : Kind
  | CallErr : Kind
  | CallVal : Kind
  deriving DecidableEq, Repr

/-- Where a goroutine is inside a submission function.  `V` is the type of the
values user functions return (`error`, `interface{}`); a channel value is an
`Option V`, with `none` standing for `struct{}{}`. -/
inductive CallPc (V : Type) where
  /-- `checkRun` has passed; at the send `callQueue <- ...` (lines 75, 82, 93, 103) -/
  | queueing : CallPc V
  /-- at the receive from the private channel (lines 86, 96, 106) -/
  | waiting : CallPc V
  /-- the function has returned; `r` is what it received from the private channel -/
  | returned (r : Option V) : CallPc V
  deriving DecidableEq, Repr

/-- One call of a submission function: which function, whether its argument `f`
is the nil function, and how far the call has got. -/
structure Call (V : Type) where
  kind : Kind
  fnil : Bool
  pc : CallPc V
  deriving DecidableEq, Repr

/-- The value call number `c` sends on `callQueue`: `f` itself in `CallNonBlock`
(line 75), a fresh closure in the other three (lines 82, 93, 103). -/
def Call.func {V : Type} (cl : Call V) (c : Nat) : Func :=
  match cl.kind with
  | Kind.CallNonBlock => if cl.fnil then Func.nil else Func.plain c
  | _ => Func.wrap c

/-- Where the call stands once its send on `callQueue` is done: `CallNonBlock`
returns (line 76), the others go on to receive from their private channel. -/
def Call.afterSend {V : Type} (cl : Call V) : CallPc V :=
  match cl.kind with
  | Kind.CallNonBlock => CallPc.returned none
  | _ => CallPc.waiting

/-- What the body `f` of a call of kind `k` may return: nothing for `CallNonBlock`
and `Call`, a value for `CallErr` and `CallVal`. -/
def Kind.returns {V : Type} (k : Kind) (r : Option V) : Bool :=
  match k with
  | Kind.CallNonBlock => r.isNone
  | Kind.Call => r.isNone
  | _ => r.isSome

/-- Where the goroutine that called `Run` is (lines 46-69). -/
inductive ExecPc (V : Type) where
  /-- `Run` has not been called -/
  | idle : ExecPc V
  /-- blocked in the `select` of line 62 -/
  | select : ExecPc V
  /-- line 63 has received `f`; line 64 has not started -/
  | got (f : Func) : ExecPc V
  /-- inside the user function of task `f` (lines 64, 83, 94, 104) -/
  | body (f : Func) : ExecPc V
  /-- inside the closure of call `c`, at the send of `r` on its private channel
  (lines 84, 94, 104) -/
  | sending (c : Nat) (r : Option V) : ExecPc V
  /-- `Run` has returned (line 66) -/
  | returned : ExecPc V
  deriving DecidableEq, Repr

/-- Where the goroutine of lines 56-59 is. -/
inductive RunnerPc where
  /-- not spawned -/
  | idle : RunnerPc
  /-- spawned, `run()` not yet called -/
  | spawned : RunnerPc
  /-- inside `run()` (line 57) -/
  | inRun : RunnerPc
  /-- `run()` has returned, `close(done)` not yet executed -/
  | afterRun : RunnerPc
  /-- `close(done)` executed (line 58) -/
  | closed : RunnerPc
  deriving DecidableEq, Repr

/-- Observable events, recorded newest first in `Sys.trace`. -/
inductive Obs (V : Type) where
  /-- the executor calls the user function `f` of call `c` (lines 64, 83, 94, 104) -/
  | fBegin (c : Nat) : Obs V
  /-- that user function returns, with `r` -/
  | fEnd (c : Nat) (r : Option V) : Obs V
  /-- `Call`, `CallErr` or `CallVal` number `c` returns to its caller, with `r` -/
  | callRet (c : Nat) (r : Option V) : Obs V
  /-- the argument `run` of `Run` is called (line 57) -/
  | runBegin : Obs V
  /-- `run()` returns -/
  | runEnd : Obs V
  /-- `Run` returns (line 66) -/
  | runRet : Obs V
  deriving DecidableEq, Repr

/-- The whole program state. -/
structure Sys (V : Type) where
  /-- line 3: the global `callQueue`; `false` is nil -/
  callQueue : Bool
  /-- the unrecovered panic that ended the process, if any -/
  panicked : Option String
  /-- the goroutine of line 54, at its loop head -/
  relay : Relay
  /-- the goroutine that calls `Run` -/
  exec : ExecPc V
  /-- the goroutine of lines 56-59 -/
  runner : RunnerPc
  /-- line 53: `done` has been closed -/
  done : Bool
  /-- the calls of submission functions made so far; a call's number is its index -/
  calls : List (Call V)
  /-- history: the tasks line 64 has invoked, oldest first -/
  invoked : List Func
  /-- history: the observable events, newest first -/
  trace : List (Obs V)
  deriving DecidableEq, Repr

/-- The state at program start. -/
def Sys.init (V : Type) : Sys V :=
  { callQueue := false, panicked := none, relay := Relay.init, exec := ExecPc.idle,
    runner := RunnerPc.idle, done := false, calls := [], invoked := [], trace := [] }

/-- The atomic steps of the program; the scheduler picks one at a time. -/
inductive Label (V : Type) where
  /-- the main goroutine calls `Run` and executes lines 50-56 -/
  | runInit : Label V
  /-- a goroutine calls a submission function of kind `k` with an argument that
  is nil or not, and executes `checkRun()` -/
  | callEnter (k : Kind) (fnil : Bool) : Label V
  /-- the send on `callQueue` of call `c` meets the relay's receive (line 32) -/
  | enqueue (c : Nat) : Label V
  /-- the relay's send (line 34) meets the executor's receive (line 63) -/
  | handoff : Label V
  /-- the relay takes `case <-done` (line 36) -/
  | relayDone : Label V
  /-- line 64: the executor calls the task it received -/
  | invoke : Label V
  /-- the user function the executor is in returns, with `r` -/
  | bodyReturn (r : Option V) : Label V
  /-- the closure's send on the private channel meets the caller's receive -/
  | deliver : Label V
  /-- the executor takes `case <-done` (line 65) and `Run` returns -/
  | execDone : Label V
  /-- line 57: the spawned goroutine calls `run()` -/
  | runnerStart : Label V
  /-- `run()` returns -/
  | runnerReturn : Label V
  /-- line 58: `close(done)` -/
  | closeDone : Label V
  deriving DecidableEq, Repr

/-- Line 64, `f()`, with `f` the task just received: a plain task is the user
function itself, a closure calls its user function first thing (lines 83, 94,
104).  Calling a nil function panics. -/
def Sys.invoke {V : Type} (s : Sys V) : Option (Sys V) :=
  match s.exec with
  | ExecPc.got Func.nil => some { s with panicked := some nilCallMsg }
  | ExecPc.got (Func.plain c) =>
      some { s with exec := ExecPc.body (Func.plain c),
                    invoked := s.invoked ++ [Func.plain c],
                    trace := Obs.fBegin c :: s.trace }
  | ExecPc.got (Func.wrap c) =>
      match s.calls[c]? with
      | some cl =>
          if cl.fnil then
            some { s with exec := ExecPc.body (Func.wrap c),
                          invoked := s.invoked ++ [Func.wrap c],
                          trace := Obs.fBegin c :: s.trace,
                          panicked := some nilCallMsg }
          else
            some { s with exec := ExecPc.body (Func.wrap c),
                          invoked := s.invoked ++ [Func.wrap c],
                          trace := Obs.fBegin c :: s.trace }
      | none => none
  | _ => none

/-- The user function the executor is in returns `r`: a plain task is over
(back to line 62); a closure goes on to send `r` on its private channel. -/
def Sys.bodyReturn {V : Type} (s : Sys V) (r : Option V) : Option (Sys V) :=
  match s.exec with
  | ExecPc.body (Func.plain c) =>
      if r.isNone then
        some { s with exec := ExecPc.select, trace := Obs.fEnd c r :: s.trace }
      else none
  | ExecPc.body (Func.wrap c) =>
      match s.calls[c]? with
      | some cl =>
          if cl.kind.returns r then
            some { s with exec := ExecPc.sending c r, trace := Obs.fEnd c r :: s.trace }
          else none
      | none => none
  | _ => none

/-- One step of the program, `none` when the step is not enabled. -/
def step {V : Type} (s : Sys V) (l : Label V) : Option (Sys V) :=
  if s.panicked.isSome then none else
  match l with
  | Label.runInit =>
      match s.exec with
      | ExecPc.idle =>
          some { s with callQueue := true, exec := ExecPc.select, runner := RunnerPc.spawned }
      | _ => none
  | Label.callEnter k fnil =>
      match checkRun s.callQueue with
      | Except.error msg => some { s with panicked := some msg }
      | Except.ok _ =>
          some { s with calls := s.calls ++ [{ kind := k, fnil := fnil, pc := CallPc.queueing }] }
  | Label.enqueue c =>
      match s.calls[c]? with
      | some cl =>
          match cl.pc with
          | CallPc.queueing =>
              match s.relay.iter (RelayEvent.recv (cl.func c)) with
              | some r =>
                  some { s with relay := r,
                                calls := s.calls.set c { cl with pc := cl.afterSend } }
              | none => none
          | _ => none
      | none => none
  | Label.handoff =>
      match s.exec with
      | ExecPc.select =>
          match s.relay.iter RelayEvent.accept with
          | some r => some { s with relay := r, exec := ExecPc.got s.relay.pop.task }
          | none => none
      | _ => none
  | Label.relayDone =>
      if s.done then
        match s.relay.iter RelayEvent.shutdown with
        | some r => some { s with relay := r }
        | none => none
      else none
  | Label.invoke => s.invoke
  | Label.bodyReturn r => s.bodyReturn r
  | Label.deliver =>
      match s.exec with
      | ExecPc.sending c r =>
          match s.calls[c]? with
          | some cl =>
              match cl.pc with
              | CallPc.waiting =>
                  some { s with exec := ExecPc.select,
                                calls := s.calls.set c { cl with pc := CallPc.returned r },
                                trace := Obs.callRet c r :: s.trace }
              | _ => none
          | none => none
      | _ => none
  | Label.execDone =>
      match s.exec with
      | ExecPc.select =>
          if s.done then
            some { s with exec := ExecPc.returned, trace := Obs.runRet :: s.trace }
          else none
      | _ => none
  | Label.runnerStart =>
      match s.runner with
      | RunnerPc.spawned =>
          some { s with runner := RunnerPc.inRun, trace := Obs.runBegin :: s.trace }
      | _ => none
  | Label.runnerReturn =>
      match s.runner with
      | RunnerPc.inRun =>
          some { s with runner := RunnerPc.afterRun, trace := Obs.runEnd :: s.trace }
      | _ => none
  | Label.closeDone =>
      match s.runner with
      | RunnerPc.afterRun => some { s with runner := RunnerPc.closed, done := true }
      | _ => none

/-- The program run along a schedule: the steps taken one after the other. -/
def execute {V : Type} : Sys V → List (Label V) → Option (Sys V)
  | s, [] => some s
  | s, l :: ls => (step s l).bind fun s1 => execute s1 ls

/-- One step of the program under the meeting rule of unbuffered channels.  A
send and a receive on an unbuffered channel meet only when one of the two
goroutines is blocked waiting for the other.  Both ends of the channel `tasks`
are cases of a `select` that also has `case <-done` (lines 34-36 and 63-65), and
a `select` with a case that can proceed does not block; so once `done` is closed
neither the relay nor the executor waits on `tasks`, and the two cannot meet.
Every other step is as in `step`: the sends on `callQueue` and on the private
channels are plain statements, which do block. -/
def stepSync {V : Type} (s : Sys V) (l : Label V) : Option (Sys V) :=
  match l with
  | Label.handoff => if s.done then none else step s Label.handoff
  | l1 => step s l1

/-- The program run along a schedule under the meeting rule. -/
def executeSync {V : Type} : Sys V → List (Label V) → Option (Sys V)
  | s, [] => some s
  | s, l :: ls => (stepSync s l).bind fun s1 => executeSync s1 ls

/-! ## Invariants -/

/-- The submission a non-nil task belongs to. -/
def Func.id? : Func → Option Nat
  | Func.nil => none
  | Func.plain c => some c
  | Func.wrap c => some c

/-- The submissions the tasks of a list belong to. -/
def ids (l : List Func) : List Nat := l.filterMap Func.id?

/-- The task the executor has received and not yet invoked. -/
def ExecPc.held {V : Type} : ExecPc V → List Func
  | ExecPc.got f => [f]
  | _ => []

/-- The tasks on their way to line 64: held by the executor, on the wire, or in
the relay's local queue. -/
def Sys.pipeline {V : Type} (s : Sys V) : List Func :=
  s.exec.held ++ (s.relay.onWire ++ s.relay.tasks)

/-- Each event of a trace (newest first) is preceded by the events it needs and
is not a repetition. -/
def TraceOK {V : Type} : List (Obs V) → Prop
  | [] => True
  | Obs.fBegin c :: t => TraceOK t ∧ Obs.fBegin c ∉ t
  | Obs.fEnd c _ :: t => TraceOK t ∧ Obs.fBegin c ∈ t ∧ ∀ r1, Obs.fEnd c r1 ∉ t
  | Obs.callRet c r :: t => TraceOK t ∧ Obs.fEnd c r ∈ t ∧ ∀ r1, Obs.callRet c r1 ∉ t
  | Obs.runBegin :: t => TraceOK t ∧ Obs.runBegin ∉ t
  | Obs.runEnd :: t => TraceOK t ∧ Obs.runBegin ∈ t ∧ Obs.runEnd ∉ t
  | Obs.runRet :: t => TraceOK t ∧ Obs.runEnd ∈ t ∧ Obs.runRet ∉ t

/-- Whether an event is the call of the user function of submission `c`. -/
def Obs.isBegin {V : Type} (c : Nat) : Obs V → Bool
  | Obs.fBegin c1 => c1 == c
  | _ => false

/-- Whether an event is the call of the argument of `Run`. -/
def Obs.isRunBegin {V : Type} : Obs V → Bool
  | Obs.runBegin => true
  | _ => false

/-- How many times the user function of submission `c` has been called. -/
def beginCount {V : Type} (c : Nat) (t : List (Obs V)) : Nat := t.countP (Obs.isBegin c)

/-- How many times the argument of `Run` has been called. -/
def runBeginCount {V : Type} (t : List (Obs V)) : Nat := t.countP Obs.isRunBegin

/-- The relay never holds a task it is not offering. -/
def Relay.WF (r : Relay) : Prop := r.tasksCh = false → r.task = Func.nil

/-- The relation between the histories and the local variables that holds as
long as no nil function has been received. -/
structure Relay.Inv (r : Relay) : Prop where
  conserve : r.received = r.sent ++ r.offered ++ r.tasks
  wire : r.tasksCh = true ↔ r.task ≠ Func.nil
  buffer : ∀ f ∈ r.tasks, f ≠ Func.nil

/-- The invariant of the whole program: it holds initially and every step
preserves it. -/
structure Inv {V : Type} (s : Sys V) : Prop where
  relayWF : s.relay.WF
  relayInv : (∀ f ∈ s.relay.received, f ≠ Func.nil) → s.relay.Inv
  sentInv : s.relay.sent = s.invoked ++ s.exec.held
  nodup : (ids s.pipeline).Nodup
  pipe : ∀ c ∈ ids s.pipeline,
    Obs.fBegin c ∉ s.trace ∧ ∃ cl, s.calls[c]? = some cl ∧ cl.pc ≠ CallPc.queueing
  fresh : ∀ c, (∀ cl, s.calls[c]? = some cl → cl.pc = CallPc.queueing) →
    Obs.fBegin c ∉ s.trace
  body : ∀ f, s.exec = ExecPc.body f →
    ∃ c, f.id? = some c ∧ Obs.fBegin c ∈ s.trace ∧ ∀ r, Obs.fEnd c r ∉ s.trace
  send : ∀ c r, s.exec = ExecPc.sending c r →
    Obs.fEnd c r ∈ s.trace ∧ ∃ cl, s.calls[c]? = some cl ∧ cl.kind.returns r = true
  ret : ∀ c r, Obs.callRet c r ∈ s.trace →
    ∃ cl, s.calls[c]? = some cl ∧ cl.pc = CallPc.returned r ∧ cl.kind.returns r = true
  retOf : ∀ c cl r, s.calls[c]? = some cl → cl.pc = CallPc.returned r →
    cl.kind ≠ Kind.CallNonBlock → Obs.callRet c r ∈ s.trace
  traceOK : TraceOK s.trace
  runner1 : s.runner = RunnerPc.idle ∨ s.runner = RunnerPc.spawned → Obs.runBegin ∉ s.trace
  runner2 : s.runner = RunnerPc.inRun → Obs.runBegin ∈ s.trace ∧ Obs.runEnd ∉ s.trace
  runner3 : s.runner = RunnerPc.afterRun ∨ s.runner = RunnerPc.closed →
    Obs.runEnd ∈ s.trace
  doneInv : s.done = true → s.runner = RunnerPc.closed
  execRet : s.exec = ExecPc.returned → s.done = true
  runRet : Obs.runRet ∈ s.trace → s.exec = ExecPc.returned
  idleInv : s.exec = ExecPc.idle → s.runner = RunnerPc.idle ∧ s.done = false
  relayRet : s.relay.returned = true → s.done = true

/-- Every user function that has been called has returned, or is the one the
goroutine of `Run` is inside. -/
def Bodies {V : Type} (s : Sys V) : Prop :=
  ∀ c, Obs.fBegin c ∈ s.trace →
    (∃ r, Obs.fEnd c r ∈ s.trace) ∨ ∃ f, s.exec = ExecPc.body f ∧ f.id? = some c

/-! ## Facts about the relay -/

theorem shiftOut_eq_tail {α : Type} (l : List α) : shiftOut l = l.drop 1 := by
  unfold shiftOut goCopy
  cases l with
  | nil => simp
  | cons a t =>
    simp only [List.drop_succ_cons, List.drop_zero, List.length_cons, Nat.add_sub_cancel]
    rw [List.take_append_of_le_length (by simp)]
    simp [List.take_take]

theorem Relay.inv_init : Relay.init.Inv :=
  ⟨by simp [Relay.init, Relay.offered], by simp [Relay.init], by simp [Relay.init]⟩

theorem Relay.inv_pop {r : Relay} (h : r.Inv) : r.pop.Inv := by
  unfold Relay.pop
  split
  · rename_i hc
    obtain ⟨ht, hl⟩ := hc
    cases hts : r.tasks with
    | nil => simp [hts] at hl
    | cons a t =>
      have ha : a ≠ Func.nil := h.buffer a (by simp [hts])
      refine ⟨?_, ?_, ?_⟩
      · have := h.conserve
        simp [Relay.offered, ht, hts, ha, shiftOut_eq_tail] at this ⊢
        exact this
      · simp [hts, ha]
      · intro f hf
        simp [shiftOut_eq_tail, hts] at hf
        exact h.buffer f (by simp [hts, hf])
  · exact h

theorem Relay.inv_select {r r1 : Relay} {e : RelayEvent} (h : r.Inv)
    (hs : r.select e = some r1) (hnn : ∀ f, e = RelayEvent.recv f → f ≠ Func.nil) :
    r1.Inv := by
  cases e with
  | recv f =>
    simp [Relay.select] at hs
    subst hs
    refine ⟨?_, h.wire, ?_⟩
    · have := h.conserve
      simp [Relay.offered] at this ⊢
      rw [this]
      simp
    · intro g hg
      simp at hg
      rcases hg with hg | hg
      · exact h.buffer g hg
      · exact hg ▸ hnn f rfl
  | accept =>
    simp [Relay.select] at hs
    obtain ⟨hch, hs⟩ := hs
    subst hs
    have hne : r.task ≠ Func.nil := h.wire.mp hch
    refine ⟨?_, by simp, h.buffer⟩
    have := h.conserve
    simp [Relay.offered, hne] at this ⊢
    exact this
  | shutdown =>
    simp [Relay.select] at hs
    subst hs
    exact ⟨h.conserve, h.wire, h.buffer⟩

theorem Relay.inv_iter {r r1 : Relay} {e : RelayEvent} (h : r.Inv)
    (hs : r.iter e = some r1) (hnn : ∀ f, e = RelayEvent.recv f → f ≠ Func.nil) :
    r1.Inv := by
  unfold Relay.iter at hs
  split at hs
  · simp at hs
  · exact Relay.inv_select (Relay.inv_pop h) hs hnn

theorem Relay.inv_run (es : List RelayEvent) :
    ∀ {r r1 : Relay}, r.Inv → transferTasks r es = some r1 →
      (∀ f, RelayEvent.recv f ∈ es → f ≠ Func.nil) → r1.Inv := by
  induction es with
  | nil =>
    intro r r1 h hr _
    simp [transferTasks] at hr
    exact hr ▸ h
  | cons e es ih =>
    intro r r1 h hr hnn
    simp only [transferTasks, Option.bind_eq_some] at hr
    obtain ⟨r2, h2, hr⟩ := hr
    exact ih (Relay.inv_iter h h2 fun f hf => hnn f (by simp [hf])) hr
      fun f hf => hnn f (by simp [hf])


theorem Relay.pop_fields (r : Relay) :
    r.pop.sent = r.sent ∧ r.pop.received = r.received ∧ r.pop.returned = r.returned := by
  unfold Relay.pop
  split <;> simp

theorem Relay.pop_wf {r : Relay} (h : r.WF) : r.pop.WF := by
  unfold Relay.pop
  split
  · intro hc
    simp at hc
  · exact h

theorem Relay.pop_ids (r : Relay) :
    ids (r.pop.onWire ++ r.pop.tasks) = ids (r.onWire ++ r.tasks) := by
  unfold Relay.pop
  split
  · rename_i hc
    obtain ⟨ht, hl⟩ := hc
    cases hts : r.tasks with
    | nil => simp [hts] at hl
    | cons a t =>
      cases hch : r.tasksCh <;>
        simp [Relay.onWire, shiftOut_eq_tail, ids, hch, ht, Func.id?]
  · rfl

theorem Relay.iter_recv {r r1 : Relay} {f : Func} (h : r.WF)
    (hs : r.iter (RelayEvent.recv f) = some r1) :
    r1.WF ∧ ids (r1.onWire ++ r1.tasks) = ids (r.onWire ++ r.tasks) ++ ids [f] ∧
      r1.sent = r.sent ∧ r1.received = r.received ++ [f] ∧ r1.returned = false := by
  unfold Relay.iter at hs
  split at hs
  · simp at hs
  · rename_i hret
    simp [Relay.select] at hs
    subst hs
    have hp := Relay.pop_fields r
    have hi := Relay.pop_ids r
    refine ⟨Relay.pop_wf h, ?_, hp.1, by simp [hp.2.1], by simpa [hp.2.2] using hret⟩
    simp only [Relay.onWire, ids, List.filterMap_append] at hi ⊢
    rw [← List.append_assoc, hi]

theorem Relay.iter_accept {r r1 : Relay} (_h : r.WF)
    (hs : r.iter RelayEvent.accept = some r1) :
    r1.WF ∧ ids ([r.pop.task] ++ (r1.onWire ++ r1.tasks)) = ids (r.onWire ++ r.tasks) ∧
      r1.sent = r.sent ++ [r.pop.task] ∧ r1.received = r.received ∧ r1.returned = false := by
  unfold Relay.iter at hs
  split at hs
  · simp at hs
  · rename_i hret
    simp [Relay.select] at hs
    obtain ⟨hch, hs⟩ := hs
    subst hs
    have hp := Relay.pop_fields r
    have hi := Relay.pop_ids r
    refine ⟨by intro _; rfl, ?_, by simp [hp.1], hp.2.1, by simpa [hp.2.2] using hret⟩
    rw [← hi]
    simp [Relay.onWire, hch]

theorem Relay.iter_shutdown {r r1 : Relay} (h : r.WF)
    (hs : r.iter RelayEvent.shutdown = some r1) :
    r1.WF ∧ ids (r1.onWire ++ r1.tasks) = ids (r.onWire ++ r.tasks) ∧
      r1.sent = r.sent ∧ r1.received = r.received := by
  unfold Relay.iter at hs
  split at hs
  · simp at hs
  · simp [Relay.select] at hs
    subst hs
    have hp := Relay.pop_fields r
    exact ⟨Relay.pop_wf h, Relay.pop_ids r, hp.1, hp.2.1⟩

/-! ## Facts about lists -/

theorem lookup_append_of_some {α : Type} {l : List α} {c : Nat} {a : α} (l1 : List α)
    (h : l[c]? = some a) : (l ++ l1)[c]? = some a := by
  have hlt : c < l.length := by
    by_contra hc
    simp [List.getElem?_eq_none (Nat.le_of_not_lt hc)] at h
  rw [List.getElem?_append_left hlt]
  exact h

theorem lookup_append_single {α : Type} {l : List α} {c : Nat} {a x : α}
    (h : (l ++ [x])[c]? = some a) : l[c]? = some a ∨ (c = l.length ∧ a = x) := by
  by_cases hlt : c < l.length
  · rw [List.getElem?_append_left hlt] at h
    exact Or.inl h
  · rw [List.getElem?_append_right (Nat.le_of_not_lt hlt)] at h
    right
    by_cases hc : c = l.length
    · subst hc
      simp at h
      exact ⟨rfl, h.symm⟩
    · have : c - l.length ≠ 0 := by omega
      obtain ⟨k, hk⟩ := Nat.exists_eq_succ_of_ne_zero this
      rw [hk] at h
      simp at h

theorem lookup_set {α : Type} {l : List α} {c0 : Nat} {a : α} (y : α) (c : Nat)
    (h : l[c0]? = some a) : (l.set c0 y)[c]? = if c = c0 then some y else l[c]? := by
  have hlt : c0 < l.length := by
    by_contra hc
    simp [List.getElem?_eq_none (Nat.le_of_not_lt hc)] at h
  by_cases hc : c = c0
  · subst hc
    simp [hlt]
  · simp [hc, List.getElem?_set_ne (Ne.symm hc)]

/-! ## Facts about traces -/

theorem TraceOK.tail {V : Type} {e : Obs V} {t : List (Obs V)} (h : TraceOK (e :: t)) :
    TraceOK t := by
  cases e <;> exact h.1

theorem TraceOK.suffix {V : Type} (l1 : List (Obs V)) {l2 : List (Obs V)}
    (h : TraceOK (l1 ++ l2)) : TraceOK l2 := by
  induction l1 with
  | nil => exact h
  | cons e l ih => exact ih (TraceOK.tail h)

theorem TraceOK.fEnd_before {V : Type} {t : List (Obs V)} (h : TraceOK t) {c : Nat}
    {r : Option V} {l1 l2 : List (Obs V)} (ht : t = l1 ++ Obs.callRet c r :: l2) :
    Obs.fEnd c r ∈ l2 ∧ ∀ r1, Obs.callRet c r1 ∉ l2 := by
  subst ht
  exact (TraceOK.suffix l1 h).2

theorem TraceOK.fBegin_before {V : Type} {t : List (Obs V)} (h : TraceOK t) {c : Nat}
    {r : Option V} {l1 l2 : List (Obs V)} (ht : t = l1 ++ Obs.fEnd c r :: l2) :
    Obs.fBegin c ∈ l2 ∧ ∀ r1, Obs.fEnd c r1 ∉ l2 := by
  subst ht
  exact (TraceOK.suffix l1 h).2

theorem TraceOK.fBegin_once {V : Type} {t : List (Obs V)} (h : TraceOK t) {c : Nat}
    {l1 l2 : List (Obs V)} (ht : t = l1 ++ Obs.fBegin c :: l2) : Obs.fBegin c ∉ l2 := by
  subst ht
  exact (TraceOK.suffix l1 h).2

theorem TraceOK.runEnd_before {V : Type} {t : List (Obs V)} (h : TraceOK t)
    {l1 l2 : List (Obs V)} (ht : t = l1 ++ Obs.runRet :: l2) :
    Obs.runEnd ∈ l2 ∧ Obs.runRet ∉ l2 := by
  subst ht
  exact (TraceOK.suffix l1 h).2

theorem TraceOK.runBegin_before {V : Type} {t : List (Obs V)} (h : TraceOK t)
    {l1 l2 : List (Obs V)} (ht : t = l1 ++ Obs.runEnd :: l2) :
    Obs.runBegin ∈ l2 ∧ Obs.runEnd ∉ l2 := by
  subst ht
  exact (TraceOK.suffix l1 h).2

theorem TraceOK.runBegin_once {V : Type} {t : List (Obs V)} (h : TraceOK t)
    {l1 l2 : List (Obs V)} (ht : t = l1 ++ Obs.runBegin :: l2) : Obs.runBegin ∉ l2 := by
  subst ht
  exact (TraceOK.suffix l1 h).2

theorem TraceOK.fBegin_of_fEnd {V : Type} {t : List (Obs V)} (h : TraceOK t) {c : Nat}
    {r : Option V} (hm : Obs.fEnd c r ∈ t) : Obs.fBegin c ∈ t := by
  obtain ⟨l1, l2, ht⟩ := List.append_of_mem hm
  have := (h.fBegin_before ht).1
  rw [ht]
  simp [this]

theorem TraceOK.fEnd_of_callRet {V : Type} {t : List (Obs V)} (h : TraceOK t) {c : Nat}
    {r : Option V} (hm : Obs.callRet c r ∈ t) : Obs.fEnd c r ∈ t := by
  obtain ⟨l1, l2, ht⟩ := List.append_of_mem hm
  have := (h.fEnd_before ht).1
  rw [ht]
  simp [this]

theorem TraceOK.runBegin_of_runEnd {V : Type} {t : List (Obs V)} (h : TraceOK t)
    (hm : Obs.runEnd ∈ t) : Obs.runBegin ∈ t := by
  obtain ⟨l1, l2, ht⟩ := List.append_of_mem hm
  have := (h.runBegin_before ht).1
  rw [ht]
  simp [this]

theorem TraceOK.runEnd_of_runRet {V : Type} {t : List (Obs V)} (h : TraceOK t)
    (hm : Obs.runRet ∈ t) : Obs.runEnd ∈ t := by
  obtain ⟨l1, l2, ht⟩ := List.append_of_mem hm
  have := (h.runEnd_before ht).1
  rw [ht]
  simp [this]

theorem TraceOK.fEnd_unique {V : Type} {t : List (Obs V)} (h : TraceOK t) {c : Nat}
    {r r1 : Option V} (hm : Obs.fEnd c r ∈ t) (hm1 : Obs.fEnd c r1 ∈ t) : r = r1 := by
  induction t with
  | nil => simp at hm
  | cons e t ih =>
    have ht := TraceOK.tail h
    rcases List.mem_cons.mp hm with he | ha
    · rcases List.mem_cons.mp hm1 with he1 | hb
      · rw [← he] at he1
        injection he1 with _ h2
        exact h2.symm
      · subst he
        exact absurd hb (h.2.2 r1)
    · rcases List.mem_cons.mp hm1 with he1 | hb
      · subst he1
        exact absurd ha (h.2.2 r)
      · exact ih ht ha hb

/-! ## The invariant of the whole program -/

theorem sys_inv_init (V : Type) : Inv (Sys.init V) where
  relayWF := by intro _; rfl
  relayInv := fun _ => Relay.inv_init
  sentInv := rfl
  nodup := by simp [Sys.pipeline, Sys.init, Relay.init, Relay.onWire, ExecPc.held, ids]
  pipe := by simp [Sys.pipeline, Sys.init, Relay.init, Relay.onWire, ExecPc.held, ids]
  fresh := by simp [Sys.init]
  body := by simp [Sys.init]
  send := by simp [Sys.init]
  ret := by simp [Sys.init]
  retOf := by simp [Sys.init]
  traceOK := trivial
  runner1 := by simp [Sys.init]
  runner2 := by simp [Sys.init]
  runner3 := by simp [Sys.init]
  doneInv := by simp [Sys.init]
  execRet := by simp [Sys.init]
  runRet := by simp [Sys.init]
  relayRet := by simp [Sys.init, Relay.init]
  idleInv := by simp [Sys.init]

theorem inv_runInit {V : Type} {s s1 : Sys V} (h : Inv s)
    (hs : step s Label.runInit = some s1) : Inv s1 := by
  unfold step at hs
  split at hs
  · simp at hs
  · simp only at hs
    split at hs
    · rename_i hex
      simp at hs
      subst hs
      have hp := h.pipe
      have hn := h.nodup
      have hi := h.idleInv hex
      simp only [Sys.pipeline, hex, ExecPc.held] at hp hn
      exact {
        relayWF := h.relayWF
        relayInv := h.relayInv
        sentInv := by have := h.sentInv; simpa [hex, ExecPc.held] using this
        nodup := by simpa [Sys.pipeline, ExecPc.held] using hn
        pipe := by simpa [Sys.pipeline, ExecPc.held] using hp
        fresh := h.fresh
        body := by simp
        send := by simp
        ret := h.ret
        retOf := h.retOf
        traceOK := h.traceOK
        runner1 := fun _ => h.runner1 (Or.inl hi.1)
        runner2 := by simp
        runner3 := by simp
        doneInv := by simp [hi.2]
        execRet := by simp
        runRet := by
          intro hr
          have := h.runRet hr
          simp [hex] at this
        relayRet := h.relayRet
        idleInv := by simp }
    · simp at hs

theorem inv_runnerStart {V : Type} {s s1 : Sys V} (h : Inv s)
    (hs : step s Label.runnerStart = some s1) : Inv s1 := by
  unfold step at hs
  split at hs
  · simp at hs
  · simp only at hs
    split at hs
    · rename_i hrn
      simp at hs
      subst hs
      exact {
        relayWF := h.relayWF
        relayInv := h.relayInv
        sentInv := h.sentInv
        nodup := h.nodup
        pipe := fun c hc => ⟨by simpa using (h.pipe c hc).1, (h.pipe c hc).2⟩
        fresh := fun c hc => by simpa using h.fresh c hc
        body := fun f hf => by simpa using h.body f hf
        send := fun c r hc => by simpa using h.send c r hc
        ret := fun c r hc => h.ret c r (by simpa using hc)
        retOf := fun c cl r h1 h2 h3 => by simpa using h.retOf c cl r h1 h2 h3
        traceOK := ⟨h.traceOK, h.runner1 (Or.inr hrn)⟩
        runner1 := by simp
        runner2 := fun _ => ⟨by simp, by
          intro hc
          simp at hc
          exact h.runner1 (Or.inr hrn) (h.traceOK.runBegin_of_runEnd hc)⟩
        runner3 := by simp
        doneInv := fun hd => by have := h.doneInv hd; simp [hrn] at this
        execRet := h.execRet
        runRet := fun hr => h.runRet (by simpa using hr)
        relayRet := h.relayRet
        idleInv := fun hi => by have := h.idleInv hi; simp [hrn] at this }
    · simp at hs

theorem inv_runnerReturn {V : Type} {s s1 : Sys V} (h : Inv s)
    (hs : step s Label.runnerReturn = some s1) : Inv s1 := by
  unfold step at hs
  split at hs
  · simp at hs
  · simp only at hs
    split at hs
    · rename_i hrn
      simp at hs
      subst hs
      exact {
        relayWF := h.relayWF
        relayInv := h.relayInv
        sentInv := h.sentInv
        nodup := h.nodup
        pipe := fun c hc => ⟨by simpa using (h.pipe c hc).1, (h.pipe c hc).2⟩
        fresh := fun c hc => by simpa using h.fresh c hc
        body := fun f hf => by simpa using h.body f hf
        send := fun c r hc => by simpa using h.send c r hc
        ret := fun c r hc => h.ret c r (by simpa using hc)
        retOf := fun c cl r h1 h2 h3 => by simpa using h.retOf c cl r h1 h2 h3
        traceOK := ⟨h.traceOK, h.runner2 hrn⟩
        runner1 := by simp
        runner2 := by simp
        runner3 := by simp
        doneInv := fun hd => by have := h.doneInv hd; simp [hrn] at this
        execRet := h.execRet
        runRet := fun hr => h.runRet (by simpa using hr)
        relayRet := h.relayRet
        idleInv := fun hi => by have := h.idleInv hi; simp [hrn] at this }
    · simp at hs

theorem inv_closeDone {V : Type} {s s1 : Sys V} (h : Inv s)
    (hs : step s Label.closeDone = some s1) : Inv s1 := by
  unfold step at hs
  split at hs
  · simp at hs
  · simp only at hs
    split at hs
    · rename_i hrn
      simp at hs
      subst hs
      exact {
        relayWF := h.relayWF
        relayInv := h.relayInv
        sentInv := h.sentInv
        nodup := h.nodup
        pipe := h.pipe
        fresh := h.fresh
        body := h.body
        send := h.send
        ret := h.ret
        retOf := h.retOf
        traceOK := h.traceOK
        runner1 := by simp
        runner2 := by simp
        runner3 := fun _ => h.runner3 (Or.inl hrn)
        doneInv := by simp
        execRet := by simp
        runRet := h.runRet
        relayRet := by simp
        idleInv := fun hi => by have := h.idleInv hi; simp [hrn] at this }
    · simp at hs

theorem inv_execDone {V : Type} {s s1 : Sys V} (h : Inv s)
    (hs : step s Label.execDone = some s1) : Inv s1 := by
  unfold step at hs
  split at hs
  · simp at hs
  · simp only at hs
    split at hs
    · rename_i hex
      split at hs
      · rename_i hd
        simp at hs
        subst hs
        have hp := h.pipe
        have hn := h.nodup
        simp only [Sys.pipeline, hex, ExecPc.held] at hp hn
        have hnr : Obs.runRet ∉ s.trace := fun hr => by
          have := h.runRet hr
          simp [hex] at this
        exact {
          relayWF := h.relayWF
          relayInv := h.relayInv
          sentInv := by have := h.sentInv; simpa [hex, ExecPc.held] using this
          nodup := by simpa [Sys.pipeline, ExecPc.held] using hn
          pipe := by simpa [Sys.pipeline, ExecPc.held] using hp
          fresh := fun c hc => by simpa using h.fresh c hc
          body := by simp
          send := by simp
          ret := fun c r hc => h.ret c r (by simpa using hc)
          retOf := fun c cl r h1 h2 h3 => by simpa using h.retOf c cl r h1 h2 h3
          traceOK := ⟨h.traceOK, h.runner3 (Or.inr (h.doneInv hd)), hnr⟩
          runner1 := fun hr => by simpa using h.runner1 hr
          runner2 := fun hr => by simpa using h.runner2 hr
          runner3 := fun hr => by simpa using h.runner3 hr
          doneInv := h.doneInv
          execRet := fun _ => hd
          runRet := by simp
          relayRet := h.relayRet
          idleInv := by simp }
      · simp at hs
    · simp at hs

theorem inv_relayDone {V : Type} {s s1 : Sys V} (h : Inv s)
    (hs : step s Label.relayDone = some s1) : Inv s1 := by
  unfold step at hs
  split at hs
  · simp at hs
  · simp only at hs
    split at hs
    · rename_i hd
      split at hs
      · rename_i r hr
        simp at hs
        subst hs
        obtain ⟨hwf, hids, hsent, hrecv⟩ := Relay.iter_shutdown h.relayWF hr
        have hp := h.pipe
        have hn := h.nodup
        simp only [Sys.pipeline, ids, List.filterMap_append] at hp hn hids
        exact {
          relayWF := hwf
          relayInv := fun hnn =>
            Relay.inv_iter (h.relayInv (by simpa [hrecv] using hnn)) hr (by simp)
          sentInv := by have := h.sentInv; simpa [hsent] using this
          nodup := by
            simp only [Sys.pipeline, ids, List.filterMap_append]
            rw [hids]
            exact hn
          pipe := by
            simp only [Sys.pipeline, ids, List.filterMap_append]
            rw [hids]
            exact hp
          fresh := h.fresh
          body := h.body
          send := h.send
          ret := h.ret
          retOf := h.retOf
          traceOK := h.traceOK
          runner1 := h.runner1
          runner2 := h.runner2
          runner3 := h.runner3
          doneInv := h.doneInv
          execRet := h.execRet
          runRet := h.runRet
          relayRet := fun _ => hd
          idleInv := h.idleInv }
      · simp at hs
    · simp at hs

theorem inv_handoff {V : Type} {s s1 : Sys V} (h : Inv s)
    (hs : step s Label.handoff = some s1) : Inv s1 := by
  unfold step at hs
  split at hs
  · simp at hs
  · simp only at hs
    split at hs
    · rename_i hex
      split at hs
      · rename_i r hr
        simp at hs
        subst hs
        obtain ⟨hwf, hids, hsent, hrecv, hret⟩ := Relay.iter_accept h.relayWF hr
        have hp := h.pipe
        have hn := h.nodup
        simp only [Sys.pipeline, hex, ExecPc.held, List.nil_append] at hp hn
        exact {
          relayWF := hwf
          relayInv := fun hnn =>
            Relay.inv_iter (h.relayInv (by simpa [hrecv] using hnn)) hr (by simp)
          sentInv := by
            have := h.sentInv
            simp only [hex, ExecPc.held, List.append_nil] at this
            simp [hsent, ExecPc.held, this]
          nodup := by
            simp only [Sys.pipeline, ExecPc.held]
            rw [hids]
            exact hn
          pipe := by
            simp only [Sys.pipeline, ExecPc.held]
            rw [hids]
            exact hp
          fresh := h.fresh
          body := by simp
          send := by simp
          ret := h.ret
          retOf := h.retOf
          traceOK := h.traceOK
          runner1 := h.runner1
          runner2 := h.runner2
          runner3 := h.runner3
          doneInv := h.doneInv
          execRet := by simp
          runRet := fun hr => by
            have := h.runRet hr
            simp [hex] at this
          relayRet := fun hc => by simp [hret] at hc
          idleInv := by simp }
      · simp at hs
    · simp at hs

theorem inv_callEnter {V : Type} {s s1 : Sys V} {k : Kind} {fnil : Bool} (h : Inv s)
    (hs : step s (Label.callEnter k fnil) = some s1) : Inv s1 := by
  unfold step at hs
  split at hs
  · simp at hs
  · simp only at hs
    split at hs
    · simp at hs
      subst hs
      exact {
        relayWF := h.relayWF, relayInv := h.relayInv, sentInv := h.sentInv
        nodup := h.nodup, pipe := h.pipe, fresh := h.fresh, body := h.body
        send := h.send, ret := h.ret, retOf := h.retOf, traceOK := h.traceOK
        runner1 := h.runner1, runner2 := h.runner2, runner3 := h.runner3
        doneInv := h.doneInv, execRet := h.execRet, runRet := h.runRet
        relayRet := h.relayRet
        idleInv := h.idleInv }
    · simp at hs
      subst hs
      exact {
        relayWF := h.relayWF
        relayInv := h.relayInv
        sentInv := h.sentInv
        nodup := h.nodup
        pipe := fun c hc => by
          obtain ⟨h1, cl, h2, h3⟩ := h.pipe c hc
          exact ⟨h1, cl, lookup_append_of_some _ h2, h3⟩
        fresh := fun c hc =>
          h.fresh c fun cl hcl => hc cl (lookup_append_of_some _ hcl)
        body := h.body
        send := fun c r hc => by
          obtain ⟨h1, cl, h2, h3⟩ := h.send c r hc
          exact ⟨h1, cl, lookup_append_of_some _ h2, h3⟩
        ret := fun c r hc => by
          obtain ⟨cl, h2, h3⟩ := h.ret c r hc
          exact ⟨cl, lookup_append_of_some _ h2, h3⟩
        retOf := fun c cl r h1 h2 h3 => by
          rcases lookup_append_single h1 with h4 | ⟨_, h4⟩
          · exact h.retOf c cl r h4 h2 h3
          · subst h4
            simp at h2
        traceOK := h.traceOK
        runner1 := h.runner1
        runner2 := h.runner2
        runner3 := h.runner3
        doneInv := h.doneInv
        execRet := h.execRet
        runRet := h.runRet
        relayRet := h.relayRet
        idleInv := h.idleInv }

theorem Call.afterSend_ne {V : Type} (cl : Call V) : cl.afterSend ≠ CallPc.queueing := by
  unfold Call.afterSend
  split <;> simp

theorem Call.afterSend_returned {V : Type} {cl : Call V} {r : Option V}
    (h : cl.afterSend = CallPc.returned r) : cl.kind = Kind.CallNonBlock := by
  unfold Call.afterSend at h
  split at h
  · assumption
  · simp at h

theorem ids_single (f : Func) (c : Nat) (h : c ∈ ids [f]) : f.id? = some c := by
  simpa [ids] using h

theorem Call.func_id {V : Type} (cl : Call V) (c c1 : Nat) (h : (cl.func c).id? = some c1) :
    c1 = c := by
  unfold Call.func at h
  split at h
  · split at h <;> simp [Func.id?] at h
    exact h.symm
  · simp [Func.id?] at h
    exact h.symm

theorem inv_enqueue {V : Type} {s s1 : Sys V} {c0 : Nat} (h : Inv s)
    (hs : step s (Label.enqueue c0) = some s1) : Inv s1 := by
  unfold step at hs
  split at hs
  · simp at hs
  · simp only at hs
    split at hs
    · rename_i cl0 hcl0
      split at hs
      · rename_i hpc
        split at hs
        · rename_i r hr
          simp at hs
          subst hs
          obtain ⟨hwf, hids, hsent, hrecv, hret⟩ := Relay.iter_recv h.relayWF hr
          have hlk := fun c => lookup_set { cl0 with pc := cl0.afterSend } c hcl0
          have hc0 : c0 ∉ ids s.pipeline := fun hc => by
            obtain ⟨_, cl, h2, h3⟩ := h.pipe c0 hc
            rw [hcl0] at h2
            injection h2 with h2
            exact h3 (h2 ▸ hpc)
          have hpl : ∀ cs : List (Call V),
              ids (Sys.pipeline { s with relay := r, calls := cs })
                = ids s.pipeline ++ ids [cl0.func c0] := by
            intro cs
            simp only [Sys.pipeline, ids, List.filterMap_append] at hids ⊢
            rw [hids]
            simp only [List.append_assoc]
          exact {
            relayWF := hwf
            relayInv := fun hnn =>
              Relay.inv_iter (h.relayInv fun f hf => hnn f (by simp [hrecv, hf])) hr
                fun f hf => by
                  injection hf with hf
                  exact hnn f (by simp [hrecv, hf])
            sentInv := by have := h.sentInv; simpa [hsent] using this
            nodup := by
              rw [hpl]
              refine List.Nodup.append h.nodup ?_ ?_
              · cases hf : (cl0.func c0).id? <;> simp [ids, hf]
              · intro c hc1 hc2
                have := Call.func_id cl0 c0 c (ids_single _ _ hc2)
                exact hc0 (this ▸ hc1)
            pipe := fun c hc => by
              rw [hpl] at hc
              rcases List.mem_append.mp hc with hc | hc
              · obtain ⟨h1, cl, h2, h3⟩ := h.pipe c hc
                refine ⟨h1, ?_⟩
                simp only [hlk]
                split
                · exact ⟨_, rfl, Call.afterSend_ne cl0⟩
                · exact ⟨cl, h2, h3⟩
              · have hcc := Call.func_id cl0 c0 c (ids_single _ _ hc)
                subst hcc
                refine ⟨h.fresh c fun cl hcl => ?_, ?_⟩
                · rw [hcl0] at hcl
                  injection hcl with hcl
                  exact hcl ▸ hpc
                · simp only [hlk]
                  exact ⟨{ cl0 with pc := cl0.afterSend }, by simp, Call.afterSend_ne cl0⟩
            fresh := fun c hc => by
              simp only [hlk] at hc
              by_cases hcc : c = c0
              · simp only [hcc, if_true] at hc
                exact absurd (hc _ rfl) (Call.afterSend_ne cl0)
              · simp only [hcc, if_false] at hc
                exact h.fresh c hc
            body := h.body
            send := fun c r hc => by
              obtain ⟨h1, cl, h2, h3⟩ := h.send c r hc
              refine ⟨h1, ?_⟩
              simp only [hlk]
              split
              · rename_i hcc
                subst hcc
                rw [hcl0] at h2
                injection h2 with h2
                exact ⟨_, rfl, by simpa [h2] using h3⟩
              · exact ⟨cl, h2, h3⟩
            ret := fun c r hc => by
              obtain ⟨cl, h2, h3, h4⟩ := h.ret c r hc
              simp only [hlk]
              split
              · rename_i hcc
                subst hcc
                rw [hcl0] at h2
                injection h2 with h2
                rw [← h2, hpc] at h3
                simp at h3
              · exact ⟨cl, h2, h3, h4⟩
            retOf := fun c cl r h1 h2 h3 => by
              simp only [hlk] at h1
              split at h1
              · injection h1 with h1
                subst h1
                exact absurd (Call.afterSend_returned h2) h3
              · exact h.retOf c cl r h1 h2 h3
            traceOK := h.traceOK
            runner1 := h.runner1
            runner2 := h.runner2
            runner3 := h.runner3
            doneInv := h.doneInv
            execRet := h.execRet
            runRet := h.runRet
            relayRet := fun hc => by simp [hret] at hc
            idleInv := h.idleInv }
        · simp at hs
      · simp at hs
    · simp at hs

theorem inv_enterBody {V : Type} {s : Sys V} {f : Func} {c : Nat} (h : Inv s)
    (hex : s.exec = ExecPc.got f) (hid : f.id? = some c) (p : Option String) :
    Inv { s with exec := ExecPc.body f, invoked := s.invoked ++ [f],
                 trace := Obs.fBegin c :: s.trace, panicked := p } := by
  have hpl : ids s.pipeline = c :: ids (s.relay.onWire ++ s.relay.tasks) := by
    simp [Sys.pipeline, hex, ExecPc.held, ids, hid]
  have hn := h.nodup
  have hp := h.pipe
  rw [hpl] at hn hp
  have hcn : c ∉ ids (s.relay.onWire ++ s.relay.tasks) := (List.nodup_cons.mp hn).1
  obtain ⟨hcb, clc, hclc, hpcc⟩ := hp c (by simp)
  exact {
    relayWF := h.relayWF
    relayInv := h.relayInv
    sentInv := by have := h.sentInv; simpa [hex, ExecPc.held] using this
    nodup := by simpa [Sys.pipeline, ExecPc.held] using (List.nodup_cons.mp hn).2
    pipe := fun c1 hc1 => by
      have hc1 : c1 ∈ ids (s.relay.onWire ++ s.relay.tasks) := by
        simpa [Sys.pipeline, ExecPc.held] using hc1
      obtain ⟨h1, h2⟩ := hp c1 (List.mem_cons_of_mem _ hc1)
      refine ⟨?_, h2⟩
      intro hm
      rcases List.mem_cons.mp hm with he | hm
      · injection he with he
        exact hcn (he ▸ hc1)
      · exact h1 hm
    fresh := fun c1 hc1 hm => by
      rcases List.mem_cons.mp hm with he | hm
      · injection he with he
        subst he
        exact hpcc (hc1 clc hclc)
      · exact h.fresh c1 hc1 hm
    body := fun f1 hf1 => by
      simp at hf1
      subst hf1
      refine ⟨c, hid, by simp, fun r hm => ?_⟩
      simp at hm
      exact hcb (h.traceOK.fBegin_of_fEnd hm)
    send := by simp
    ret := fun c1 r hc1 => h.ret c1 r (by simpa using hc1)
    retOf := fun c1 cl r h1 h2 h3 => by simpa using h.retOf c1 cl r h1 h2 h3
    traceOK := ⟨h.traceOK, hcb⟩
    runner1 := fun hr => by simpa using h.runner1 hr
    runner2 := fun hr => by simpa using h.runner2 hr
    runner3 := fun hr => by simpa using h.runner3 hr
    doneInv := h.doneInv
    execRet := by simp
    runRet := fun hr => by
      have := h.runRet (by simpa using hr)
      simp [hex] at this
    relayRet := h.relayRet
    idleInv := by simp }

theorem inv_invoke {V : Type} {s s1 : Sys V} (h : Inv s)
    (hs : step s Label.invoke = some s1) : Inv s1 := by
  unfold step at hs
  split at hs
  · simp at hs
  · simp only [Sys.invoke] at hs
    split at hs
    · simp at hs
      subst hs
      exact {
        relayWF := h.relayWF, relayInv := h.relayInv, sentInv := h.sentInv
        nodup := h.nodup, pipe := h.pipe, fresh := h.fresh, body := h.body
        send := h.send, ret := h.ret, retOf := h.retOf, traceOK := h.traceOK
        runner1 := h.runner1, runner2 := h.runner2, runner3 := h.runner3
        doneInv := h.doneInv, execRet := h.execRet, runRet := h.runRet
        relayRet := h.relayRet
        idleInv := h.idleInv }
    · rename_i c hex
      simp at hs
      subst hs
      exact inv_enterBody h hex rfl s.panicked
    · rename_i c hex
      split at hs
      · split at hs
        · simp at hs
          subst hs
          exact inv_enterBody h hex rfl (some nilCallMsg)
        · simp at hs
          subst hs
          exact inv_enterBody h hex rfl s.panicked
      · simp at hs
    · simp at hs

theorem inv_leaveBody {V : Type} {s : Sys V} {f : Func} {c : Nat} {r : Option V}
    {e : ExecPc V} (h : Inv s) (hex : s.exec = ExecPc.body f) (hid : f.id? = some c)
    (he : e = ExecPc.select ∨
      (e = ExecPc.sending c r ∧ ∃ cl, s.calls[c]? = some cl ∧ cl.kind.returns r = true)) :
    Inv { s with exec := e, trace := Obs.fEnd c r :: s.trace } := by
  have hheld : e.held = [] := by
    rcases he with he | ⟨he, _⟩ <;> simp [he, ExecPc.held]
  have hp := h.pipe
  have hn := h.nodup
  simp only [Sys.pipeline, hex, ExecPc.held] at hp hn
  obtain ⟨c1, hid1, hb, hne⟩ := h.body f hex
  rw [hid] at hid1
  injection hid1 with hid1
  subst hid1
  exact {
    relayWF := h.relayWF
    relayInv := h.relayInv
    sentInv := by
      have := h.sentInv
      simp only [hex, ExecPc.held, List.append_nil] at this
      show s.relay.sent = s.invoked ++ e.held
      rw [hheld, List.append_nil]
      exact this
    nodup := by simpa [Sys.pipeline, hheld] using hn
    pipe := fun c1 hc1 => by
      have hc1 : c1 ∈ ids ([] ++ (s.relay.onWire ++ s.relay.tasks)) := by
        simpa [Sys.pipeline, hheld] using hc1
      obtain ⟨h1, h2⟩ := hp c1 hc1
      exact ⟨by simpa using h1, h2⟩
    fresh := fun c1 hc1 => by simpa using h.fresh c1 hc1
    body := fun f1 hf1 => by
      rcases he with he | ⟨he, _⟩ <;> simp [he] at hf1
    send := fun c1 r1 hc1 => by
      rcases he with he | ⟨he, hcl⟩
      · simp [he] at hc1
      · simp [he] at hc1
        obtain ⟨h1, h2⟩ := hc1
        subst h1
        subst h2
        exact ⟨by simp, hcl⟩
    ret := fun c1 r1 hc1 => h.ret c1 r1 (by simpa using hc1)
    retOf := fun c1 cl r1 h1 h2 h3 => by simpa using h.retOf c1 cl r1 h1 h2 h3
    traceOK := ⟨h.traceOK, hb, hne⟩
    runner1 := fun hr => by simpa using h.runner1 hr
    runner2 := fun hr => by simpa using h.runner2 hr
    runner3 := fun hr => by simpa using h.runner3 hr
    doneInv := h.doneInv
    execRet := fun hr => by
      rcases he with he | ⟨he, _⟩ <;> simp [he] at hr
    runRet := fun hr => by
      have := h.runRet (by simpa using hr)
      simp [hex] at this
    relayRet := h.relayRet
    idleInv := fun hr => by
      rcases he with he | ⟨he, _⟩ <;> simp [he] at hr }

theorem inv_bodyReturn {V : Type} {s s1 : Sys V} {r : Option V} (h : Inv s)
    (hs : step s (Label.bodyReturn r) = some s1) : Inv s1 := by
  unfold step at hs
  split at hs
  · simp at hs
  · simp only [Sys.bodyReturn] at hs
    split at hs
    · rename_i c hex
      split at hs
      · simp at hs
        subst hs
        exact inv_leaveBody h hex rfl (Or.inl rfl)
      · simp at hs
    · rename_i c hex
      split at hs
      · rename_i cl hcl
        split at hs
        · rename_i hk
          simp at hs
          subst hs
          exact inv_leaveBody h hex rfl (Or.inr ⟨rfl, cl, hcl, hk⟩)
        · simp at hs
      · simp at hs
    · simp at hs

theorem inv_deliver {V : Type} {s s1 : Sys V} (h : Inv s)
    (hs : step s Label.deliver = some s1) : Inv s1 := by
  unfold step at hs
  split at hs
  · simp at hs
  · simp only at hs
    split at hs
    · rename_i c0 r0 hex
      split at hs
      · rename_i cl0 hcl0
        split at hs
        · rename_i hpc
          simp at hs
          subst hs
          have hlk := fun c => lookup_set { cl0 with pc := CallPc.returned r0 } c hcl0
          obtain ⟨hfe, cls, hcls, hk⟩ := h.send c0 r0 hex
          rw [hcl0] at hcls
          injection hcls with hcls
          subst hcls
          have hp := h.pipe
          have hn := h.nodup
          simp only [Sys.pipeline, hex, ExecPc.held] at hp hn
          have hnc : ∀ r1, Obs.callRet c0 r1 ∉ s.trace := fun r1 hm => by
            obtain ⟨cl, h2, h3, _⟩ := h.ret c0 r1 hm
            rw [hcl0] at h2
            injection h2 with h2
            rw [← h2, hpc] at h3
            simp at h3
          exact {
            relayWF := h.relayWF
            relayInv := h.relayInv
            sentInv := by have := h.sentInv; simpa [hex, ExecPc.held] using this
            nodup := by simpa [Sys.pipeline, ExecPc.held] using hn
            pipe := fun c hc => by
              have hc : c ∈ ids ([] ++ (s.relay.onWire ++ s.relay.tasks)) := by
                simpa [Sys.pipeline, ExecPc.held] using hc
              obtain ⟨h1, cl, h2, h3⟩ := hp c hc
              refine ⟨by simpa using h1, ?_⟩
              simp only [hlk]
              split
              · exact ⟨{ cl0 with pc := CallPc.returned r0 }, rfl, by simp⟩
              · exact ⟨cl, h2, h3⟩
            fresh := fun c hc => by
              simp only [hlk] at hc
              by_cases hcc : c = c0
              · simp only [hcc, if_true] at hc
                have := hc _ rfl
                simp at this
              · simp only [hcc, if_false] at hc
                simpa using h.fresh c hc
            body := by simp
            send := by simp
            ret := fun c r hc => by
              simp only [hlk]
              rcases List.mem_cons.mp hc with he | hm
              · injection he with h1 h2
                subst h1
                subst h2
                simp only [if_true]
                exact ⟨_, rfl, rfl, hk⟩
              · obtain ⟨cl, h2, h3, h4⟩ := h.ret c r hm
                split
                · rename_i hcc
                  subst hcc
                  exact absurd hm (hnc r)
                · exact ⟨cl, h2, h3, h4⟩
            retOf := fun c cl r h1 h2 h3 => by
              simp only [hlk] at h1
              split at h1
              · rename_i hcc
                injection h1 with h1
                subst h1
                subst hcc
                simp at h2
                subst h2
                simp
              · exact List.mem_cons_of_mem _ (h.retOf c cl r h1 h2 h3)
            traceOK := ⟨h.traceOK, hfe, hnc⟩
            runner1 := fun hr => by simpa using h.runner1 hr
            runner2 := fun hr => by simpa using h.runner2 hr
            runner3 := fun hr => by simpa using h.runner3 hr
            doneInv := h.doneInv
            execRet := by simp
            runRet := fun hr => by
              have := h.runRet (by simpa using hr)
              simp [hex] at this
            relayRet := h.relayRet
            idleInv := by simp }
        · simp at hs
      · simp at hs
    · simp at hs

theorem inv_step {V : Type} {s s1 : Sys V} (l : Label V) (h : Inv s)
    (hs : step s l = some s1) : Inv s1 := by
  cases l with
  | runInit => exact inv_runInit h hs
  | callEnter k fnil => exact inv_callEnter h hs
  | enqueue c => exact inv_enqueue h hs
  | handoff => exact inv_handoff h hs
  | relayDone => exact inv_relayDone h hs
  | invoke => exact inv_invoke h hs
  | bodyReturn r => exact inv_bodyReturn h hs
  | deliver => exact inv_deliver h hs
  | execDone => exact inv_execDone h hs
  | runnerStart => exact inv_runnerStart h hs
  | runnerReturn => exact inv_runnerReturn h hs
  | closeDone => exact inv_closeDone h hs

theorem sys_inv_run {V : Type} (ls : List (Label V)) :
    ∀ {s s1 : Sys V}, Inv s → execute s ls = some s1 → Inv s1 := by
  induction ls with
  | nil =>
    intro s s1 h hr
    simp [execute] at hr
    exact hr ▸ h
  | cons l ls ih =>
    intro s s1 h hr
    simp only [execute, Option.bind_eq_some] at hr
    obtain ⟨s2, h2, hr⟩ := hr
    exact ih (inv_step l h h2) hr

theorem inv_reachable {V : Type} {ls : List (Label V)} {s : Sys V}
    (hr : execute (Sys.init V) ls = some s) : Inv s :=
  sys_inv_run ls (sys_inv_init V) hr

/-! ## The relay: order of delivery and intake -/

theorem Relay.iter_received {r r1 : Relay} {e : RelayEvent} (hs : r.iter e = some r1) :
    r1.received = r.received ++ recvs [e] ∧ (r1.sent = r.sent ∨ e = RelayEvent.accept) := by
  unfold Relay.iter at hs
  split at hs
  · simp at hs
  · have hp := Relay.pop_fields r
    cases e with
    | recv f =>
      simp [Relay.select] at hs
      subst hs
      simp [recvs, hp.1, hp.2.1]
    | accept =>
      simp [Relay.select] at hs
      obtain ⟨_, hs⟩ := hs
      subst hs
      simp [recvs, hp.2.1]
    | shutdown =>
      simp [Relay.select] at hs
      subst hs
      simp [recvs, hp.1, hp.2.1]

theorem recvs_cons (e : RelayEvent) (es : List RelayEvent) :
    recvs (e :: es) = recvs [e] ++ recvs es := by
  cases e <;> simp [recvs]

theorem mem_recvs {f : Func} {es : List RelayEvent} (h : RelayEvent.recv f ∈ es) :
    f ∈ recvs es := by
  induction es with
  | nil => simp at h
  | cons e es ih =>
    rw [recvs_cons]
    rcases List.mem_cons.mp h with he | hm
    · subst he
      simp [recvs]
    · exact List.mem_append_right _ (ih hm)

theorem Relay.run_received (es : List RelayEvent) :
    ∀ {r r1 : Relay}, transferTasks r es = some r1 → r1.received = r.received ++ recvs es := by
  induction es with
  | nil =>
    intro r r1 hr
    simp [transferTasks] at hr
    simp [hr, recvs]
  | cons e es ih =>
    intro r r1 hr
    simp only [transferTasks, Option.bind_eq_some] at hr
    obtain ⟨r2, h2, hr⟩ := hr
    rw [ih hr, (Relay.iter_received h2).1, List.append_assoc, ← recvs_cons]

theorem Relay.run_recvs (fs : List Func) :
    ∀ {r : Relay}, r.returned = false →
      ∃ r1, transferTasks r (fs.map RelayEvent.recv) = some r1 ∧ r1.returned = false ∧
        r1.sent = r.sent ∧ r1.received = r.received ++ fs := by
  induction fs with
  | nil =>
    intro r hr
    exact ⟨r, rfl, hr, rfl, by simp⟩
  | cons f fs ih =>
    intro r hr
    have hp := Relay.pop_fields r
    have hi : r.iter (RelayEvent.recv f) = some
        { r.pop with tasks := r.pop.tasks ++ [f], received := r.pop.received ++ [f] } := by
      simp [Relay.iter, hr, Relay.select]
    obtain ⟨r1, h1, h2, h3, h4⟩ := ih
      (r := { r.pop with tasks := r.pop.tasks ++ [f], received := r.pop.received ++ [f] })
      (by simpa [hp.2.2] using hr)
    refine ⟨r1, ?_, h2, ?_, ?_⟩
    · simp only [List.map_cons, transferTasks, hi, Option.some_bind]
      exact h1
    · simpa [hp.1] using h3
    · simpa [hp.2.1] using h4

/-- C1 (as stated, refuted): a run of the relay in which the tasks sent on `to`
are not a prefix of the tasks received from `callQueue`.  A nil function is
received first; the pop of lines 23-30 offers it (`task` is nil, `tasksCh` is
`to`); the next task arrives before the executor accepts; the next pop sees
`task == nil`, overwrites the offered nil task, and the later task is sent
alone. -/
theorem fifo_delivery_fails_on_nil_task :
    ∃ r, transferTasks Relay.init
        [RelayEvent.recv Func.nil, RelayEvent.recv (Func.plain 1), RelayEvent.accept] = some r ∧
      r.received = [Func.nil, Func.plain 1] ∧ r.sent = [Func.plain 1] ∧
      ¬ r.sent <+: r.received :=
  ⟨_, rfl, rfl, rfl, by decide⟩

/-- C1 (amended): for every run of the relay `transferTasks` (every finite
sequence of receive, accept and shutdown events the `select` can commit to) in
which no received task is the nil function, the tasks received are exactly the
tasks the events delivered, in order, and the sequence of tasks sent on `to` is a
prefix of the sequence received from `callQueue`. -/
theorem fifo_delivery (es : List RelayEvent) (r : Relay)
    (hrun : transferTasks Relay.init es = some r)
    (hnn : ∀ f ∈ recvs es, f ≠ Func.nil) :
    r.received = recvs es ∧ r.sent <+: r.received := by
  have hinv : r.Inv := Relay.inv_run es Relay.inv_init hrun fun f hf => hnn f (mem_recvs hf)
  refine ⟨by simpa [Relay.init] using Relay.run_received es hrun, ?_⟩
  exact ⟨r.offered ++ r.tasks, by rw [hinv.conserve, List.append_assoc]⟩

/-- A run with three tasks and two acceptances: the two sent are the first two
received. -/
theorem fifo_delivery_witness :
    ∃ r, transferTasks Relay.init
        [RelayEvent.recv (Func.plain 0), RelayEvent.recv (Func.wrap 1), RelayEvent.accept,
          RelayEvent.recv (Func.plain 2), RelayEvent.accept] = some r ∧
      r.sent = [Func.plain 0, Func.wrap 1] ∧
      (r.received = [Func.plain 0, Func.wrap 1, Func.plain 2] ∧ r.sent <+: r.received) :=
  match h : transferTasks Relay.init
      [RelayEvent.recv (Func.plain 0), RelayEvent.recv (Func.wrap 1), RelayEvent.accept,
        RelayEvent.recv (Func.plain 2), RelayEvent.accept] with
  | some r => ⟨r, rfl, by cases h; rfl, fifo_delivery _ r h (by decide)⟩
  | none => absurd h (by decide)

/-! ## Counting calls -/

theorem beginCount_zero {V : Type} {c : Nat} {t : List (Obs V)} (h : Obs.fBegin c ∉ t) :
    beginCount c t = 0 := by
  unfold beginCount
  rw [List.countP_eq_zero]
  intro e he hb
  cases e <;> simp [Obs.isBegin] at hb
  exact h (hb ▸ he)

theorem beginCount_one {V : Type} {c : Nat} {t : List (Obs V)} (h : TraceOK t)
    (hm : Obs.fBegin c ∈ t) : beginCount c t = 1 := by
  induction t with
  | nil => simp at hm
  | cons e t ih =>
    have ht := TraceOK.tail h
    by_cases he : e = Obs.fBegin c
    · subst he
      have := beginCount_zero h.2
      simp [beginCount, Obs.isBegin] at this ⊢
      exact this
    · have hm1 : Obs.fBegin c ∈ t := by
        rcases List.mem_cons.mp hm with h1 | h1
        · exact absurd h1.symm he
        · exact h1
      have hb : Obs.isBegin c e = false := by
        cases e <;> simp [Obs.isBegin] at he ⊢
        exact he
      have := ih ht hm1
      simp [beginCount, hb] at this ⊢
      exact this

theorem runBeginCount_zero {V : Type} {t : List (Obs V)} (h : Obs.runBegin ∉ t) :
    runBeginCount t = 0 := by
  unfold runBeginCount
  rw [List.countP_eq_zero]
  intro e he hb
  cases e <;> simp [Obs.isRunBegin] at hb
  exact h he

theorem runBeginCount_one {V : Type} {t : List (Obs V)} (h : TraceOK t)
    (hm : Obs.runBegin ∈ t) : runBeginCount t = 1 := by
  induction t with
  | nil => simp at hm
  | cons e t ih =>
    have ht := TraceOK.tail h
    by_cases he : e = Obs.runBegin
    · subst he
      have := runBeginCount_zero h.2
      simp [runBeginCount, Obs.isRunBegin] at this ⊢
      exact this
    · have hm1 : Obs.runBegin ∈ t := by
        rcases List.mem_cons.mp hm with h1 | h1
        · exact absurd h1.symm he
        · exact h1
      have hb : Obs.isRunBegin e = false := by
        cases e <;> simp [Obs.isRunBegin] at he ⊢
      have := ih ht hm1
      simp [runBeginCount, hb] at this ⊢
      exact this

theorem runBeginCount_le {V : Type} {t : List (Obs V)} (h : TraceOK t) :
    runBeginCount t ≤ 1 := by
  by_cases hm : Obs.runBegin ∈ t
  · exact le_of_eq (runBeginCount_one h hm)
  · rw [runBeginCount_zero hm]
    exact Nat.zero_le 1

/-! ## A blocking call that has returned -/

theorem returned_call_trace {V : Type} {s : Sys V} {c : Nat} {cl : Call V} {r : Option V}
    (h : Inv s) (hc : s.calls[c]? = some cl) (hpc : cl.pc = CallPc.returned r)
    (hk : cl.kind ≠ Kind.CallNonBlock) :
    cl.kind.returns r = true ∧ beginCount c s.trace = 1 ∧
      (∀ r1, Obs.fEnd c r1 ∈ s.trace → r1 = r) ∧
      ∃ l1 l2 l3 l4, s.trace =
        l1 ++ Obs.callRet c r :: (l2 ++ Obs.fEnd c r :: (l3 ++ Obs.fBegin c :: l4)) := by
  have hret := h.retOf c cl r hc hpc hk
  obtain ⟨cl1, hc1, _, hty⟩ := h.ret c r hret
  rw [hc] at hc1
  injection hc1 with hc1
  subst hc1
  have hfe := h.traceOK.fEnd_of_callRet hret
  have hfb := h.traceOK.fBegin_of_fEnd hfe
  refine ⟨hty, beginCount_one h.traceOK hfb, fun r1 h1 => h.traceOK.fEnd_unique h1 hfe, ?_⟩
  obtain ⟨l1, m1, ht1⟩ := List.append_of_mem hret
  obtain ⟨l2, m2, ht2⟩ := List.append_of_mem (h.traceOK.fEnd_before ht1).1
  have hok2 : TraceOK m1 := by
    have := h.traceOK
    rw [ht1] at this
    exact TraceOK.tail (TraceOK.suffix l1 this)
  obtain ⟨l3, m3, ht3⟩ := List.append_of_mem (hok2.fBegin_before ht2).1
  exact ⟨l1, l2, l3, m3, by rw [ht1, ht2, ht3]⟩

/-! ## The claims about the whole program -/

/-- C2 (as stated, refuted): a reachable state, before shutdown, in which the
tasks received from `callQueue` are not the tasks sent, followed by the offered
task, followed by the pending buffer.  `CallNonBlock(nil)` and then
`CallNonBlock(g)` are enqueued with no executor progress; at the `select` the
relay offers `g` with an empty buffer, and the nil task received before it is
nowhere: it was dropped by the pop of lines 23-30. -/
theorem exactly_once_fails_on_nil_task :
    ∃ s : Sys Nat, execute (Sys.init Nat)
        [Label.runInit, Label.callEnter Kind.CallNonBlock true,
          Label.callEnter Kind.CallNonBlock false, Label.enqueue 0, Label.enqueue 1] = some s ∧
      s.relay.returned = false ∧ s.done = false ∧
      s.relay.pop.received = [Func.nil, Func.plain 1] ∧ s.relay.pop.sent = [] ∧
      s.relay.pop.offered = [Func.plain 1] ∧ s.relay.pop.onWire = [Func.plain 1] ∧
      s.relay.pop.tasks = [] ∧
      s.relay.pop.received ≠ s.relay.pop.sent ++ s.relay.pop.offered ++ s.relay.pop.tasks :=
  ⟨_, rfl, rfl, rfl, rfl, rfl, rfl, rfl, rfl, by decide⟩

/-- C2 (amended): in every reachable state of the program in which no task
received from `callQueue` is the nil function, at the loop head of
`transferTasks` and at its `select`, the tasks received so far are exactly, in
order, the tasks already sent on `to`, followed by the offered task `task` (if
it is not nil, which is exactly when `tasksCh` is `to`), followed by the pending
buffer `tasks`; and the tasks sent on `to` are exactly, in order, the tasks the
loop of `Run` has invoked, each once, followed by the task it has received and
not yet invoked. -/
theorem exactly_once {V : Type} (ls : List (Label V)) (s : Sys V)
    (hrun : execute (Sys.init V) ls = some s)
    (hnn : ∀ f ∈ s.relay.received, f ≠ Func.nil) :
    s.relay.received = s.relay.sent ++ s.relay.offered ++ s.relay.tasks ∧
      s.relay.pop.received = s.relay.pop.sent ++ s.relay.pop.offered ++ s.relay.pop.tasks ∧
      (s.relay.tasksCh = true ↔ s.relay.task ≠ Func.nil) ∧
      s.relay.sent = s.invoked ++ s.exec.held ∧
      s.relay.received = s.invoked ++ s.exec.held ++ s.relay.offered ++ s.relay.tasks := by
  have h := inv_reachable hrun
  have hr := h.relayInv hnn
  refine ⟨hr.conserve, (Relay.inv_pop hr).conserve, hr.wire, h.sentInv, ?_⟩
  rw [← h.sentInv]
  exact hr.conserve

/-- Three submissions: one invoked, one offered by the relay and one in its
buffer. -/
theorem exactly_once_witness :
    ∃ s : Sys Nat, execute (Sys.init Nat)
        [Label.runInit, Label.callEnter Kind.CallNonBlock false,
          Label.callEnter Kind.Call false, Label.callEnter Kind.CallVal false,
          Label.enqueue 0, Label.enqueue 1, Label.handoff, Label.enqueue 2,
          Label.invoke] = some s ∧
      s.relay.received = [Func.plain 0, Func.wrap 1, Func.wrap 2] ∧
      s.invoked = [Func.plain 0] ∧
      (s.relay.received = s.relay.sent ++ s.relay.offered ++ s.relay.tasks ∧
        s.relay.pop.received = s.relay.pop.sent ++ s.relay.pop.offered ++ s.relay.pop.tasks ∧
        (s.relay.tasksCh = true ↔ s.relay.task ≠ Func.nil) ∧
        s.relay.sent = s.invoked ++ s.exec.held ∧
        s.relay.received = s.invoked ++ s.exec.held ++ s.relay.offered ++ s.relay.tasks) :=
  match h : execute (Sys.init Nat)
      [Label.runInit, Label.callEnter Kind.CallNonBlock false,
        Label.callEnter Kind.Call false, Label.callEnter Kind.CallVal false,
        Label.enqueue 0, Label.enqueue 1, Label.handoff, Label.enqueue 2,
        Label.invoke] with
  | some s => ⟨s, rfl, by cases h; rfl, by cases h; rfl,
      exactly_once _ s h (by cases h; decide)⟩
  | none => absurd h (by decide)

/-- C3: in every reachable state in which a call `c` of `Call` has returned, the
task it enqueued is its closure, the closure's user function `f` was called
exactly once, and the trace (newest first) shows the return of `Call` after the
return of `f`, which is after the call of `f`. -/
theorem call_returns_after_f {V : Type} (ls : List (Label V)) (s : Sys V) (c : Nat)
    (cl : Call V) (r : Option V)
    (hrun : execute (Sys.init V) ls = some s) (hc : s.calls[c]? = some cl)
    (hk : cl.kind = Kind.Call) (hpc : cl.pc = CallPc.returned r) :
    cl.func c = Func.wrap c ∧ r = none ∧ beginCount c s.trace = 1 ∧
      ∃ l1 l2 l3 l4, s.trace =
        l1 ++ Obs.callRet c r :: (l2 ++ Obs.fEnd c r :: (l3 ++ Obs.fBegin c :: l4)) := by
  obtain ⟨hty, hcnt, _, htr⟩ :=
    returned_call_trace (inv_reachable hrun) hc hpc (by rw [hk]; decide)
  refine ⟨by simp [Call.func, hk], ?_, hcnt, htr⟩
  simpa [Kind.returns, hk] using hty

/-- A complete `Call`: entered, enqueued, handed over, run and answered. -/
theorem call_returns_after_f_witness :
    ∃ s : Sys Nat, execute (Sys.init Nat)
        [Label.runInit, Label.callEnter Kind.Call false, Label.enqueue 0, Label.handoff,
          Label.invoke, Label.bodyReturn none, Label.deliver] = some s ∧
      s.calls[0]? = some { kind := Kind.Call, fnil := false, pc := CallPc.returned none } ∧
      s.trace = [Obs.callRet 0 none, Obs.fEnd 0 none, Obs.fBegin 0] ∧
      beginCount 0 s.trace = 1 :=
  match h : execute (Sys.init Nat)
      [Label.runInit, Label.callEnter Kind.Call false, Label.enqueue 0, Label.handoff,
        Label.invoke, Label.bodyReturn none, Label.deliver] with
  | some s => ⟨s, rfl, by cases h; rfl, by cases h; rfl,
      (call_returns_after_f _ s 0 _ none h (by cases h; rfl) rfl rfl).2.2.1⟩
  | none => absurd h (by decide)

/-- C4: in every reachable state in which a call `c` of `CallErr` has returned
`r`, its user function `f` was called exactly once, `r` is a value `v` of the
error type, every return of `f` recorded in the trace returned that same `v`, and
the trace shows the return of `CallErr` with `v` after the return of `f` with
`v`, which is after the call of `f`. -/
theorem callErr_passes_error_through {V : Type} (ls : List (Label V)) (s : Sys V)
    (c : Nat) (cl : Call V) (r : Option V)
    (hrun : execute (Sys.init V) ls = some s) (hc : s.calls[c]? = some cl)
    (hk : cl.kind = Kind.CallErr) (hpc : cl.pc = CallPc.returned r) :
    ∃ v, r = some v ∧ beginCount c s.trace = 1 ∧
      (∀ r1, Obs.fEnd c r1 ∈ s.trace → r1 = some v) ∧
      ∃ l1 l2 l3 l4, s.trace =
        l1 ++ Obs.callRet c (some v) ::
          (l2 ++ Obs.fEnd c (some v) :: (l3 ++ Obs.fBegin c :: l4)) := by
  obtain ⟨hty, hcnt, huniq, htr⟩ :=
    returned_call_trace (inv_reachable hrun) hc hpc (by rw [hk]; decide)
  cases r with
  | none => simp [Kind.returns, hk] at hty
  | some v => exact ⟨v, rfl, hcnt, huniq, htr⟩

/-- `CallErr` with a function returning the error "x", and with one returning
the nil error: each call returns what its function returned. -/
theorem callErr_passes_error_through_witness :
    ∃ s : Sys (Option String), execute (Sys.init (Option String))
        [Label.runInit, Label.callEnter Kind.CallErr false,
          Label.callEnter Kind.CallErr false, Label.enqueue 0, Label.enqueue 1,
          Label.handoff, Label.invoke, Label.bodyReturn (some (some "x")), Label.deliver,
          Label.handoff, Label.invoke, Label.bodyReturn (some none), Label.deliver] = some s ∧
      s.calls[0]? = some
        { kind := Kind.CallErr, fnil := false, pc := CallPc.returned (some (some "x")) } ∧
      s.calls[1]? = some
        { kind := Kind.CallErr, fnil := false, pc := CallPc.returned (some none) } ∧
      (∀ r1, Obs.fEnd 0 r1 ∈ s.trace → r1 = some (some "x")) :=
  match h : execute (Sys.init (Option String))
      [Label.runInit, Label.callEnter Kind.CallErr false,
        Label.callEnter Kind.CallErr false, Label.enqueue 0, Label.enqueue 1,
        Label.handoff, Label.invoke, Label.bodyReturn (some (some "x")), Label.deliver,
        Label.handoff, Label.invoke, Label.bodyReturn (some none), Label.deliver] with
  | some s => ⟨s, rfl, by cases h; rfl, by cases h; rfl,
      (callErr_passes_error_through _ s 0 _ (some (some "x")) h (by cases h; rfl) rfl rfl).elim
        fun v hv => by
          obtain ⟨h1, _, h3, _⟩ := hv
          injection h1 with h1
          subst h1
          exact h3⟩
  | none => absurd h (by decide)

/-- C5: in every reachable state in which a call `c` of `CallVal` has returned
`r`, its user function `f` was called exactly once, `r` is a value `v`, every
return of `f` recorded in the trace returned that same `v`, and the trace shows
the return of `CallVal` with `v` after the return of `f` with `v`, which is after
the call of `f`. -/
theorem callVal_passes_value_through {V : Type} (ls : List (Label V)) (s : Sys V)
    (c : Nat) (cl : Call V) (r : Option V)
    (hrun : execute (Sys.init V) ls = some s) (hc : s.calls[c]? = some cl)
    (hk : cl.kind = Kind.CallVal) (hpc : cl.pc = CallPc.returned r) :
    ∃ v, r = some v ∧ beginCount c s.trace = 1 ∧
      (∀ r1, Obs.fEnd c r1 ∈ s.trace → r1 = some v) ∧
      ∃ l1 l2 l3 l4, s.trace =
        l1 ++ Obs.callRet c (some v) ::
          (l2 ++ Obs.fEnd c (some v) :: (l3 ++ Obs.fBegin c :: l4)) := by
  obtain ⟨hty, hcnt, huniq, htr⟩ :=
    returned_call_trace (inv_reachable hrun) hc hpc (by rw [hk]; decide)
  cases r with
  | none => simp [Kind.returns, hk] at hty
  | some v => exact ⟨v, rfl, hcnt, huniq, htr⟩

/-- `CallVal` with a function returning 42, and with one returning the nil
interface value: each call returns what its function returned. -/
theorem callVal_passes_value_through_witness :
    ∃ s : Sys (Option Nat), execute (Sys.init (Option Nat))
        [Label.runInit, Label.callEnter Kind.CallVal false,
          Label.callEnter Kind.CallVal false, Label.enqueue 1, Label.enqueue 0,
          Label.handoff, Label.invoke, Label.bodyReturn (some none), Label.deliver,
          Label.handoff, Label.invoke, Label.bodyReturn (some (some 42)), Label.deliver]
          = some s ∧
      s.calls[0]? = some
        { kind := Kind.CallVal, fnil := false, pc := CallPc.returned (some (some 42)) } ∧
      s.calls[1]? = some
        { kind := Kind.CallVal, fnil := false, pc := CallPc.returned (some none) } ∧
      (∀ r1, Obs.fEnd 0 r1 ∈ s.trace → r1 = some (some 42)) :=
  match h : execute (Sys.init (Option Nat))
      [Label.runInit, Label.callEnter Kind.CallVal false,
        Label.callEnter Kind.CallVal false, Label.enqueue 1, Label.enqueue 0,
        Label.handoff, Label.invoke, Label.bodyReturn (some none), Label.deliver,
        Label.handoff, Label.invoke, Label.bodyReturn (some (some 42)), Label.deliver] with
  | some s => ⟨s, rfl, by cases h; rfl, by cases h; rfl,
      (callVal_passes_value_through _ s 0 _ (some (some 42)) h (by cases h; rfl) rfl rfl).elim
        fun v hv => by
          obtain ⟨h1, _, h3, _⟩ := hv
          injection h1 with h1
          subst h1
          exact h3⟩
  | none => absurd h (by decide)

/-! ## The guard -/

theorem step_callQueue {V : Type} {s s1 : Sys V} {l : Label V}
    (hs : step s l = some s1) (h : s.callQueue = false ↔ s.exec = ExecPc.idle) :
    (s1.callQueue = false ↔ s1.exec = ExecPc.idle) := by
  unfold step at hs
  split at hs
  · simp at hs
  · cases l <;> simp only [Sys.invoke, Sys.bodyReturn] at hs <;>
      (repeat' split at hs) <;> (try simp at hs) <;> (try subst hs) <;> simp_all

theorem run_callQueue {V : Type} (ls : List (Label V)) :
    ∀ {s s1 : Sys V}, execute s ls = some s1 → (s.callQueue = false ↔ s.exec = ExecPc.idle) →
      (s1.callQueue = false ↔ s1.exec = ExecPc.idle) := by
  induction ls with
  | nil =>
    intro s s1 hr h
    simp [execute] at hr
    exact hr ▸ h
  | cons l ls ih =>
    intro s s1 hr h
    simp only [execute, Option.bind_eq_some] at hr
    obtain ⟨s2, h2, hr⟩ := hr
    exact ih hr (step_callQueue h2 h)

/-- C6: in a state where the process has not panicked, entering any of the four
submission functions (with a nil or a non-nil argument) is one determined step;
`checkRun` fails with "mainthread: did not call Run" exactly when `callQueue` is
nil; the step panics with that message exactly when `callQueue` is nil, and then
nothing but the panic changes: the relay has received nothing, no call is
recorded as sending, nothing is invoked and the trace is unchanged; when
`callQueue` is not nil the call goes on to its send on `callQueue`; and in a
reachable state `callQueue` is nil exactly when `Run` has not been called. -/
theorem misuse_guard {V : Type} (s : Sys V) (k : Kind) (fnil : Bool)
    (hp : s.panicked = none) :
    (checkRun s.callQueue = Except.error "mainthread: did not call Run" ↔
        s.callQueue = false) ∧
      (∃ s1, step s (Label.callEnter k fnil) = some s1 ∧
        (s1.panicked = some "mainthread: did not call Run" ↔ s.callQueue = false) ∧
        (s1.panicked = none ↔ s.callQueue = true) ∧
        ∀ s2, step s (Label.callEnter k fnil) = some s2 → s2 = s1) ∧
      (s.callQueue = false → step s (Label.callEnter k fnil) =
        some { s with panicked := some "mainthread: did not call Run" }) ∧
      (s.callQueue = true → step s (Label.callEnter k fnil) =
        some { s with calls := s.calls ++ [{ kind := k, fnil := fnil, pc := CallPc.queueing }] }) ∧
      ∀ ls, execute (Sys.init V) ls = some s → (s.callQueue = false ↔ s.exec = ExecPc.idle) := by
  have hst1 : s.callQueue = false → step s (Label.callEnter k fnil) =
      some { s with panicked := some "mainthread: did not call Run" } := by
    intro hq
    simp [step, hp, checkRun, hq, notRunMsg]
  have hst2 : s.callQueue = true → step s (Label.callEnter k fnil) =
      some { s with calls := s.calls ++ [{ kind := k, fnil := fnil, pc := CallPc.queueing }] }
      := by
    intro hq
    simp [step, hp, checkRun, hq]
  refine ⟨by cases hq : s.callQueue <;> simp [checkRun, notRunMsg], ?_, hst1, hst2,
    fun ls hrun => run_callQueue ls hrun (by simp [Sys.init])⟩
  by_cases hq : s.callQueue = false
  · refine ⟨_, hst1 hq, by simp [hq], by simp [hq], fun s2 h2 => ?_⟩
    rw [hst1 hq] at h2
    injection h2 with h2
    exact h2.symm
  · have hq1 : s.callQueue = true := by simpa using hq
    refine ⟨_, hst2 hq1, by simp [hq1, hp], by simp [hq1, hp], fun s2 h2 => ?_⟩
    rw [hst2 hq1] at h2
    injection h2 with h2
    exact h2.symm

/-- Before `Run`: `CallErr` panics, and the state is otherwise the initial one. -/
theorem misuse_guard_witness :
    (Sys.init Nat).panicked = none ∧
      step (Sys.init Nat) (Label.callEnter Kind.CallErr false) =
        some { Sys.init Nat with panicked := some "mainthread: did not call Run" } :=
  ⟨rfl, (misuse_guard (Sys.init Nat) Kind.CallErr false rfl).2.2.1 rfl⟩

/-- C9: in every reachable state, the loop of `Run` has returned only if `done`
is closed; `done` is closed only if `run()` has returned and line 58 has
executed; `run` has been called at most once; and whenever the trace (newest
first) records the return of `Run`, the loop has returned, `run` was called
exactly once, and the return of `Run` comes after the return of `run`, which
comes after its call. -/
theorem run_returns_after_run {V : Type} (ls : List (Label V)) (s : Sys V)
    (hrun : execute (Sys.init V) ls = some s) :
    (s.exec = ExecPc.returned → s.done = true) ∧
      (s.done = true → s.runner = RunnerPc.closed ∧ Obs.runEnd ∈ s.trace) ∧
      runBeginCount s.trace ≤ 1 ∧
      ∀ l1 l2, s.trace = l1 ++ Obs.runRet :: l2 →
        s.exec = ExecPc.returned ∧ runBeginCount s.trace = 1 ∧
          ∃ l3 l4 l5, l2 = l3 ++ Obs.runEnd :: (l4 ++ Obs.runBegin :: l5) := by
  have h := inv_reachable hrun
  refine ⟨h.execRet, fun hd => ⟨h.doneInv hd, h.runner3 (Or.inr (h.doneInv hd))⟩,
    runBeginCount_le h.traceOK, fun l1 l2 ht => ?_⟩
  have hret : Obs.runRet ∈ s.trace := by rw [ht]; simp
  have hend := h.traceOK.runEnd_of_runRet hret
  have hbeg := h.traceOK.runBegin_of_runEnd hend
  refine ⟨h.runRet hret, runBeginCount_one h.traceOK hbeg, ?_⟩
  obtain ⟨l3, m3, ht3⟩ := List.append_of_mem (h.traceOK.runEnd_before ht).1
  have hok : TraceOK l2 := by
    have := h.traceOK
    rw [ht] at this
    exact TraceOK.tail (TraceOK.suffix l1 this)
  obtain ⟨l4, m4, ht4⟩ := List.append_of_mem (hok.runBegin_before ht3).1
  exact ⟨l3, l4, m4, by rw [ht3, ht4]⟩

/-- A whole life of `Run`: a task is served, `run` returns, `done` is closed and
`Run` returns. -/
theorem run_returns_after_run_witness :
    ∃ s : Sys Nat, execute (Sys.init Nat)
        [Label.runInit, Label.runnerStart, Label.callEnter Kind.CallNonBlock false,
          Label.enqueue 0, Label.handoff, Label.invoke, Label.bodyReturn none,
          Label.runnerReturn, Label.closeDone, Label.execDone] = some s ∧
      s.trace = [Obs.runRet, Obs.runEnd, Obs.fEnd 0 none, Obs.fBegin 0, Obs.runBegin] ∧
      s.exec = ExecPc.returned ∧ runBeginCount s.trace = 1 :=
  match h : execute (Sys.init Nat)
      [Label.runInit, Label.runnerStart, Label.callEnter Kind.CallNonBlock false,
        Label.enqueue 0, Label.handoff, Label.invoke, Label.bodyReturn none,
        Label.runnerReturn, Label.closeDone, Label.execDone] with
  | some s => ⟨s, rfl, by cases h; rfl,
      ((run_returns_after_run _ s h).2.2.2 [] _ (by cases h; rfl)).1,
      ((run_returns_after_run _ s h).2.2.2 [] _ (by cases h; rfl)).2.1⟩
  | none => absurd h (by decide)

/-- C10: whatever the state `r` of the relay at its `select` (any buffer length,
a task offered or not), the receive case can be taken and its effect is to
append the received task at the tail of `tasks`, leaving `task`, `tasksCh`, the
earlier entries and the tasks sent untouched; from any loop-head state of a
relay that has not returned, any number of tasks can be received in a row with
nothing sent in between, and if none of them is nil (and none was received
before) the offered task and the buffer together grow by exactly these tasks;
and in the whole program, whenever the relay has not returned, the send on
`callQueue` of any call that has passed `checkRun` is enabled, whatever the
executor is doing, leaves the executor and the tasks sent as they are, and a
`CallNonBlock` has then returned. -/
theorem intake_never_refuses {V : Type} (r : Relay) (f : Func) (fs : List Func)
    (s : Sys V) (hp : s.panicked = none) (hr : s.relay.returned = false) :
    (∃ r1, r.select (RelayEvent.recv f) = some r1 ∧ r1.tasks = r.tasks ++ [f] ∧
        r1.task = r.task ∧ r1.tasksCh = r.tasksCh ∧ r1.sent = r.sent ∧
        r1.returned = r.returned) ∧
      (∃ r2, transferTasks s.relay (fs.map RelayEvent.recv) = some r2 ∧ r2.returned = false ∧
        r2.sent = s.relay.sent ∧ r2.received = s.relay.received ++ fs ∧
        (s.relay.Inv → (∀ g ∈ fs, g ≠ Func.nil) →
          r2.offered ++ r2.tasks = s.relay.offered ++ s.relay.tasks ++ fs)) ∧
      ∀ c cl, s.calls[c]? = some cl → cl.pc = CallPc.queueing →
        ∃ s1, step s (Label.enqueue c) = some s1 ∧ s1.exec = s.exec ∧
          s1.relay.sent = s.relay.sent ∧
          s1.relay.received = s.relay.received ++ [cl.func c] ∧
          s1.calls[c]? = some { cl with pc := cl.afterSend } ∧
          (cl.kind = Kind.CallNonBlock → cl.afterSend = CallPc.returned none) := by
  refine ⟨⟨_, rfl, rfl, rfl, rfl, rfl, rfl⟩, ?_, ?_⟩
  · obtain ⟨r2, h1, h2, h3, h4⟩ := Relay.run_recvs fs hr
    refine ⟨r2, h1, h2, h3, h4, fun hinv hnn => ?_⟩
    have hinv2 : r2.Inv := Relay.inv_run _ hinv h1 fun g hg => by
      simp at hg
      exact hnn g hg
    have e1 := hinv2.conserve
    rw [h4, h3, hinv.conserve] at e1
    simp only [List.append_assoc] at e1 ⊢
    exact (List.append_cancel_left e1).symm
  · intro c cl hc hpc
    have hpf := Relay.pop_fields s.relay
    have hi : s.relay.iter (RelayEvent.recv (cl.func c)) = some
        { s.relay.pop with tasks := s.relay.pop.tasks ++ [cl.func c],
                           received := s.relay.pop.received ++ [cl.func c] } := by
      simp [Relay.iter, hr, Relay.select]
    refine ⟨{ s with relay := { s.relay.pop with
                                  tasks := s.relay.pop.tasks ++ [cl.func c],
                                  received := s.relay.pop.received ++ [cl.func c] },
                     calls := s.calls.set c { cl with pc := cl.afterSend } }, ?_, ?_⟩
    · simp [step, hp, hc, hpc, hi]
    · refine ⟨rfl, hpf.1, by simp [hpf.2.1], ?_, fun hk => by simp [Call.afterSend, hk]⟩
      simp [lookup_set _ c hc]

/-- In the program, a `CallNonBlock` is enqueued while the executor is inside a
task: the executor and the tasks sent stay as they are. -/
theorem intake_never_refuses_witness :
    ∃ s : Sys Nat, execute (Sys.init Nat)
        [Label.runInit, Label.callEnter Kind.CallNonBlock false,
          Label.callEnter Kind.CallNonBlock false, Label.enqueue 0, Label.handoff,
          Label.invoke] = some s ∧
      s.panicked = none ∧ s.relay.returned = false ∧ s.exec = ExecPc.body (Func.plain 0) ∧
      (∃ s1, step s (Label.enqueue 1) = some s1 ∧ s1.exec = s.exec ∧
        s1.relay.sent = s.relay.sent ∧
        s1.relay.received = s.relay.received ++ [Func.plain 1]) :=
  match h : execute (Sys.init Nat)
      [Label.runInit, Label.callEnter Kind.CallNonBlock false,
        Label.callEnter Kind.CallNonBlock false, Label.enqueue 0, Label.handoff,
        Label.invoke] with
  | some s => ⟨s, rfl, by cases h; rfl, by cases h; rfl, by cases h; rfl,
      ((intake_never_refuses Relay.init Func.nil [] s (by cases h; rfl)
          (by cases h; rfl)).2.2 1
          { kind := Kind.CallNonBlock, fnil := false, pc := CallPc.queueing }
          (by cases h; rfl) rfl).elim
        fun s1 hs1 => ⟨s1, hs1.1, hs1.2.1, hs1.2.2.1, hs1.2.2.2.1⟩⟩
  | none => absurd h (by decide)

/-! ## Who runs the task bodies -/

theorem step_begin {V : Type} {s s1 : Sys V} {l : Label V} {c : Nat}
    (hs : step s l = some s1) (h1 : Obs.fBegin c ∈ s1.trace) (h0 : Obs.fBegin c ∉ s.trace) :
    l = Label.invoke ∧ ∃ f, s.exec = ExecPc.got f ∧ f.id? = some c ∧
      s1.exec = ExecPc.body f := by
  unfold step at hs
  split at hs
  · simp at hs
  · cases l <;> simp only [Sys.invoke, Sys.bodyReturn] at hs <;>
      (repeat' split at hs) <;> (try simp at hs) <;> (try subst hs) <;>
      simp_all [Func.id?]

theorem step_end {V : Type} {s s1 : Sys V} {l : Label V} {c : Nat} {r : Option V}
    (hs : step s l = some s1) (h1 : Obs.fEnd c r ∈ s1.trace) (h0 : Obs.fEnd c r ∉ s.trace) :
    l = Label.bodyReturn r ∧ ∃ f, s.exec = ExecPc.body f ∧ f.id? = some c := by
  unfold step at hs
  split at hs
  · simp at hs
  · cases l <;> simp only [Sys.invoke, Sys.bodyReturn] at hs <;>
      (repeat' split at hs) <;> (try simp at hs) <;> (try subst hs) <;>
      simp_all [Func.id?]

theorem step_trace_mono {V : Type} {s s1 : Sys V} {l : Label V} {e : Obs V}
    (hs : step s l = some s1) (he : e ∈ s.trace) : e ∈ s1.trace := by
  unfold step at hs
  split at hs
  · simp at hs
  · cases l <;> simp only [Sys.invoke, Sys.bodyReturn] at hs <;>
      (repeat' split at hs) <;> (try simp at hs) <;> (try subst hs) <;>
      simp_all

theorem step_body_exit {V : Type} {s s1 : Sys V} {l : Label V} {f : Func}
    (hs : step s l = some s1) (hb : s.exec = ExecPc.body f) :
    s1.exec = ExecPc.body f ∨ ∃ c r, f.id? = some c ∧ Obs.fEnd c r ∈ s1.trace := by
  unfold step at hs
  split at hs
  · simp at hs
  · cases l <;> simp only [Sys.invoke, Sys.bodyReturn] at hs <;>
      (repeat' split at hs) <;> (try simp at hs) <;> (try subst hs) <;>
      (try simp_all [Func.id?]) <;>
      (subst hb; exact ⟨_, rfl, _, Or.inl ⟨rfl, rfl⟩⟩)

theorem step_handoff_select {V : Type} {s s1 : Sys V}
    (hs : step s Label.handoff = some s1) : s.exec = ExecPc.select := by
  unfold step at hs
  split at hs
  · simp at hs
  · simp only at hs
    split at hs
    · assumption
    · simp at hs

theorem bodies_init (V : Type) : Bodies (Sys.init V) := by
  intro c hc
  simp [Sys.init] at hc

theorem bodies_step {V : Type} {s s1 : Sys V} {l : Label V}
    (hs : step s l = some s1) (h : Bodies s) : Bodies s1 := by
  intro c hc
  by_cases h0 : Obs.fBegin c ∈ s.trace
  · rcases h c h0 with ⟨r, hr⟩ | ⟨f, hf, hid⟩
    · exact Or.inl ⟨r, step_trace_mono hs hr⟩
    · rcases step_body_exit hs hf with h1 | ⟨c1, r, hid1, hr⟩
      · exact Or.inr ⟨f, h1, hid⟩
      · rw [hid] at hid1
        injection hid1 with hid1
        subst hid1
        exact Or.inl ⟨r, hr⟩
  · obtain ⟨_, f, _, hid, hb⟩ := step_begin hs hc h0
    exact Or.inr ⟨f, hb, hid⟩

theorem bodies_execute {V : Type} (ls : List (Label V)) :
    ∀ {s s1 : Sys V}, Bodies s → execute s ls = some s1 → Bodies s1 := by
  induction ls with
  | nil =>
    intro s s1 h hr
    simp [execute] at hr
    exact hr ▸ h
  | cons l ls ih =>
    intro s s1 h hr
    simp only [execute, Option.bind_eq_some] at hr
    obtain ⟨s2, h2, hr⟩ := hr
    exact ih (bodies_step h2 h) hr

/-- C7: in every reachable state and for every step from it: the user function
of a task is called only by line 64 of the loop of `Run`, that is by the
goroutine that called `Run`, which goes from having received the task to being
inside it, and at that moment every user function called before has returned; a
user function returns only by that same goroutine leaving it; a user function
that has been called and has not returned is the one that goroutine is inside,
so two task bodies never overlap; and the loop accepts the next task only at its
`select`, when every user function called so far has returned. -/
theorem task_bodies_on_run_goroutine {V : Type} (ls : List (Label V)) (s s1 : Sys V)
    (l : Label V) (hrun : execute (Sys.init V) ls = some s) (hs : step s l = some s1) :
    (∀ c, Obs.fBegin c ∈ s1.trace → Obs.fBegin c ∉ s.trace →
        l = Label.invoke ∧
          (∃ f, s.exec = ExecPc.got f ∧ f.id? = some c ∧ s1.exec = ExecPc.body f) ∧
          ∀ c1, Obs.fBegin c1 ∈ s.trace → ∃ r, Obs.fEnd c1 r ∈ s.trace) ∧
      (∀ c r, Obs.fEnd c r ∈ s1.trace → Obs.fEnd c r ∉ s.trace →
        l = Label.bodyReturn r ∧ ∃ f, s.exec = ExecPc.body f ∧ f.id? = some c) ∧
      (∀ c c1, Obs.fBegin c ∈ s.trace → (∀ r, Obs.fEnd c r ∉ s.trace) →
        Obs.fBegin c1 ∈ s.trace → (∀ r, Obs.fEnd c1 r ∉ s.trace) →
        c = c1 ∧ ∃ f, s.exec = ExecPc.body f ∧ f.id? = some c) ∧
      (l = Label.handoff →
        s.exec = ExecPc.select ∧ ∀ c1, Obs.fBegin c1 ∈ s.trace → ∃ r, Obs.fEnd c1 r ∈ s.trace)
    := by
  have hb := bodies_execute ls (bodies_init V) hrun
  have hclosed : (∀ f, s.exec ≠ ExecPc.body f) →
      ∀ c1, Obs.fBegin c1 ∈ s.trace → ∃ r, Obs.fEnd c1 r ∈ s.trace := by
    intro hne c1 hc1
    rcases hb c1 hc1 with h1 | ⟨f, hf, _⟩
    · exact h1
    · exact absurd hf (hne f)
  refine ⟨fun c h1 h0 => ?_, fun c r h1 h0 => step_end hs h1 h0,
    fun c c1 hc hn hc1 hn1 => ?_, fun hl => ?_⟩
  · obtain ⟨h2, f, h3, h4, h5⟩ := step_begin hs h1 h0
    exact ⟨h2, ⟨f, h3, h4, h5⟩, hclosed (by simp [h3])⟩
  · rcases hb c hc with ⟨r, hr⟩ | ⟨f, hf, hid⟩
    · exact absurd hr (hn r)
    · rcases hb c1 hc1 with ⟨r, hr⟩ | ⟨f1, hf1, hid1⟩
      · exact absurd hr (hn1 r)
      · rw [hf] at hf1
        injection hf1 with hf1
        subst hf1
        rw [hid] at hid1
        injection hid1 with hid1
        exact ⟨hid1, f, hf, hid⟩
  · subst hl
    have hsel := step_handoff_select hs
    exact ⟨hsel, hclosed (by simp [hsel])⟩

/-- Two tasks served one after the other: the second is called by line 64 when
the first has returned. -/
theorem task_bodies_on_run_goroutine_witness :
    ∃ s s1 : Sys Nat, execute (Sys.init Nat)
        [Label.runInit, Label.callEnter Kind.CallNonBlock false,
          Label.callEnter Kind.Call false, Label.enqueue 0, Label.enqueue 1,
          Label.handoff, Label.invoke, Label.bodyReturn none, Label.handoff] = some s ∧
      step s Label.invoke = some s1 ∧
      s.trace = [Obs.fEnd 0 none, Obs.fBegin 0] ∧
      s1.trace = [Obs.fBegin 1, Obs.fEnd 0 none, Obs.fBegin 0] ∧
      s.exec = ExecPc.got (Func.wrap 1) ∧ s1.exec = ExecPc.body (Func.wrap 1) ∧
      ∀ c1, Obs.fBegin c1 ∈ s.trace → ∃ r, Obs.fEnd c1 r ∈ s.trace :=
  match h : execute (Sys.init Nat)
      [Label.runInit, Label.callEnter Kind.CallNonBlock false,
        Label.callEnter Kind.Call false, Label.enqueue 0, Label.enqueue 1,
        Label.handoff, Label.invoke, Label.bodyReturn none, Label.handoff] with
  | some s =>
    match h1 : step s Label.invoke with
    | some s1 => ⟨s, s1, rfl, h1, by cases h; rfl, by cases h; cases h1; rfl,
        by cases h; rfl, by cases h; cases h1; rfl,
        ((task_bodies_on_run_goroutine _ s s1 Label.invoke h h1).1 1
          (by cases h; cases h1; decide) (by cases h; decide)).2.2⟩
    | none => absurd h1 (by cases h; decide)
  | none => absurd h (by decide)

/-! ## Shutdown -/

theorem stepSync_step {V : Type} {s s1 : Sys V} {l : Label V}
    (hs : stepSync s l = some s1) : step s l = some s1 := by
  unfold stepSync at hs
  split at hs
  · split at hs
    · simp at hs
    · exact hs
  · exact hs

theorem executeSync_execute {V : Type} (ls : List (Label V)) :
    ∀ {s s1 : Sys V}, executeSync s ls = some s1 → execute s ls = some s1 := by
  induction ls with
  | nil =>
    intro s s1 hr
    simpa [executeSync, execute] using hr
  | cons l ls ih =>
    intro s s1 hr
    simp only [executeSync, Option.bind_eq_some] at hr
    obtain ⟨s2, h2, hr⟩ := hr
    simp only [execute, Option.bind_eq_some]
    exact ⟨s2, stepSync_step h2, ih hr⟩

theorem step_done_mono {V : Type} {s s1 : Sys V} {l : Label V}
    (hs : step s l = some s1) (hd : s.done = true) : s1.done = true := by
  unfold step at hs
  split at hs
  · simp at hs
  · cases l <;> simp only [Sys.invoke, Sys.bodyReturn] at hs <;>
      (repeat' split at hs) <;> (try simp at hs) <;> (try subst hs) <;>
      simp_all

theorem step_invoked {V : Type} {s s1 : Sys V} {l : Label V}
    (hs : step s l = some s1) :
    s1.invoked = s.invoked ∨
      ∃ f, s.exec = ExecPc.got f ∧ s1.exec = ExecPc.body f ∧ s1.invoked = s.invoked ++ [f]
    := by
  unfold step at hs
  split at hs
  · simp at hs
  · cases l <;> simp only [Sys.invoke, Sys.bodyReturn] at hs <;>
      (repeat' split at hs) <;> (try simp at hs) <;> (try subst hs) <;>
      simp_all

theorem stepSync_got {V : Type} {s s1 : Sys V} {l : Label V} {f : Func}
    (hs : stepSync s l = some s1) (hd : s.done = true) (hg : s1.exec = ExecPc.got f) :
    s.exec = ExecPc.got f := by
  unfold stepSync at hs
  split at hs
  · simp [hd] at hs
  · unfold step at hs
    split at hs
    · simp at hs
    · cases l <;> simp only [Sys.invoke, Sys.bodyReturn] at hs <;>
        (repeat' split at hs) <;> (try simp at hs) <;> (try subst hs) <;>
        simp_all

theorem stepSync_relay {V : Type} {s s1 : Sys V} {l : Label V}
    (hs : stepSync s l = some s1) (hd : s.done = true) :
    s1.relay = s.relay ∨ (∃ f, s.relay.iter (RelayEvent.recv f) = some s1.relay) ∨
      s.relay.iter RelayEvent.shutdown = some s1.relay := by
  unfold stepSync at hs
  split at hs
  · simp [hd] at hs
  · unfold step at hs
    split at hs
    · simp at hs
    · cases l <;> simp only [Sys.invoke, Sys.bodyReturn] at hs <;>
        (repeat' split at hs) <;> (try simp at hs) <;> (try subst hs) <;>
        (try simp_all) <;> exact Or.inr (Or.inl ⟨_, by assumption⟩)

theorem stepSync_closed {V : Type} {s s1 : Sys V} {l : Label V} (h : Inv s)
    (hs : stepSync s l = some s1) (hd : s.done = true) :
    s1.relay.sent = s.relay.sent ∧
      ∀ c ∈ ids (s.relay.onWire ++ s.relay.tasks),
        c ∈ ids (s1.relay.onWire ++ s1.relay.tasks) := by
  rcases stepSync_relay hs hd with h1 | ⟨f, h1⟩ | h1
  · rw [h1]
    exact ⟨rfl, fun c hc => hc⟩
  · obtain ⟨_, hids, hsent, _, _⟩ := Relay.iter_recv h.relayWF h1
    refine ⟨hsent, fun c hc => ?_⟩
    rw [hids]
    exact List.mem_append_left _ hc
  · obtain ⟨_, hids, hsent, _⟩ := Relay.iter_shutdown h.relayWF h1
    refine ⟨hsent, fun c hc => ?_⟩
    rw [hids]
    exact hc

theorem executeSync_closed {V : Type} (ls : List (Label V)) :
    ∀ {s s2 : Sys V}, Inv s → executeSync s ls = some s2 → s.done = true →
      s2.relay.sent = s.relay.sent ∧
        (∀ c ∈ ids (s.relay.onWire ++ s.relay.tasks),
          c ∈ ids (s2.relay.onWire ++ s2.relay.tasks)) ∧
        (s2.invoked = s.invoked ∨
          ∃ f, s.exec = ExecPc.got f ∧ s2.invoked = s.invoked ++ [f]) ∧
        (∀ c, Obs.fBegin c ∈ s2.trace →
          Obs.fBegin c ∈ s.trace ∨ ∃ f, s.exec = ExecPc.got f ∧ f.id? = some c) ∧
        ∀ f, s2.exec = ExecPc.got f → s.exec = ExecPc.got f := by
  induction ls with
  | nil =>
    intro s s2 _ hr _
    simp [executeSync] at hr
    subst hr
    exact ⟨rfl, fun _ hc => hc, Or.inl rfl, fun _ hc => Or.inl hc, fun _ hf => hf⟩
  | cons l ls ih =>
    intro s s2 h hr hd
    simp only [executeSync, Option.bind_eq_some] at hr
    obtain ⟨s1, h1, hr⟩ := hr
    have hst := stepSync_step h1
    obtain ⟨a1, a2⟩ := stepSync_closed h h1 hd
    obtain ⟨b1, b2, b3, b4, b5⟩ := ih (inv_step l h hst) hr (step_done_mono hst hd)
    refine ⟨b1.trans a1, fun c hc => b2 c (a2 c hc), ?_, fun c hc => ?_,
      fun f hf => stepSync_got h1 hd (b5 f hf)⟩
    · rcases step_invoked hst with e1 | ⟨f, e1, e2, e3⟩
      · rcases b3 with e4 | ⟨g, e4, e5⟩
        · exact Or.inl (e4.trans e1)
        · exact Or.inr ⟨g, stepSync_got h1 hd e4, by rw [e5, e1]⟩
      · rcases b3 with e4 | ⟨g, e4, _⟩
        · exact Or.inr ⟨f, e1, by rw [e4, e3]⟩
        · rw [e2] at e4
          simp at e4
    · rcases b4 c hc with e1 | ⟨f, e1, e2⟩
      · by_cases h0 : Obs.fBegin c ∈ s.trace
        · exact Or.inl h0
        · obtain ⟨_, f, e3, e4, _⟩ := step_begin hst e1 h0
          exact Or.inr ⟨f, e3, e4⟩
      · exact Or.inr ⟨f, stepSync_got h1 hd e1, e2⟩

/-- C8 (as stated, refuted): a reachable state in which `done` has been closed
and the loop of `Run` then invokes a task.  The executor receives the task on
line 63, `run()` returns and line 58 closes `done`, and only then line 64 calls
the task. -/
theorem shutdown_not_immediate :
    ∃ s s1 : Sys Nat, executeSync (Sys.init Nat)
        [Label.runInit, Label.callEnter Kind.CallNonBlock false, Label.enqueue 0,
          Label.handoff, Label.runnerStart, Label.runnerReturn, Label.closeDone] = some s ∧
      s.done = true ∧ s.invoked = [] ∧ Obs.fBegin 0 ∉ s.trace ∧
      stepSync s Label.invoke = some s1 ∧
      s1.invoked = [Func.plain 0] ∧ Obs.fBegin 0 ∈ s1.trace :=
  ⟨_, _, rfl, rfl, rfl, by decide, rfl, rfl, by decide⟩

/-- C8 (amended): from any reachable state `s` in which `done` has been closed,
along any continuation to a state `s2`: the relay has sent no further task on
`to`; no task that was offered or in the pending buffer in `s` has been
invoked; and the loop of `Run` has invoked nothing further, except possibly the
one task it had already received on line 63 and not yet called in `s`: the tasks
invoked are those of `s`, or those and that task, and every call of a user
function recorded in `s2` is recorded in `s` or is the call of that task. -/
theorem shutdown_after_close {V : Type} (ls ls2 : List (Label V)) (s s2 : Sys V)
    (hrun : executeSync (Sys.init V) ls = some s) (hrun2 : executeSync s ls2 = some s2)
    (hd : s.done = true) :
    s2.relay.sent = s.relay.sent ∧
      (∀ c ∈ ids (s.relay.onWire ++ s.relay.tasks), Obs.fBegin c ∉ s2.trace) ∧
      (s2.invoked = s.invoked ∨
        ∃ f, s.exec = ExecPc.got f ∧ s2.invoked = s.invoked ++ [f]) ∧
      ∀ c, Obs.fBegin c ∈ s2.trace →
        Obs.fBegin c ∈ s.trace ∨ ∃ f, s.exec = ExecPc.got f ∧ f.id? = some c := by
  have h := inv_reachable (executeSync_execute ls hrun)
  have h2 := sys_inv_run ls2 h (executeSync_execute ls2 hrun2)
  obtain ⟨b1, b2, b3, b4, _⟩ := executeSync_closed ls2 h hrun2 hd
  refine ⟨b1, fun c hc => ?_, b3, b4⟩
  refine (h2.pipe c ?_).1
  have := b2 c hc
  simp only [Sys.pipeline, ids, List.filterMap_append] at this ⊢
  exact List.mem_append_right _ (by simpa using this)

/-- Shutdown with one task received by the executor, one offered and one
buffered: after the close the received task is still called, a later
submission is still received by the relay, both loops return, and the offered
and the buffered task are never sent nor called. -/
theorem shutdown_after_close_witness :
    ∃ s s2 : Sys Nat, executeSync (Sys.init Nat)
        [Label.runInit, Label.callEnter Kind.CallNonBlock false,
          Label.callEnter Kind.Call false, Label.callEnter Kind.CallNonBlock false,
          Label.callEnter Kind.CallVal false, Label.enqueue 0, Label.enqueue 1,
          Label.handoff, Label.enqueue 2, Label.runnerStart, Label.runnerReturn,
          Label.closeDone] = some s ∧
      executeSync s [Label.enqueue 3, Label.invoke, Label.bodyReturn none,
          Label.relayDone, Label.execDone] = some s2 ∧
      s.done = true ∧ s.exec = ExecPc.got (Func.plain 0) ∧
      s.relay.onWire ++ s.relay.tasks = [Func.wrap 1, Func.plain 2] ∧
      s2.relay.returned = true ∧ s2.exec = ExecPc.returned ∧
      s2.relay.sent = [Func.plain 0] ∧ s2.invoked = [Func.plain 0] ∧
      (∀ c ∈ ids (s.relay.onWire ++ s.relay.tasks), Obs.fBegin c ∉ s2.trace) :=
  match h : executeSync (Sys.init Nat)
      [Label.runInit, Label.callEnter Kind.CallNonBlock false,
        Label.callEnter Kind.Call false, Label.callEnter Kind.CallNonBlock false,
        Label.callEnter Kind.CallVal false, Label.enqueue 0, Label.enqueue 1,
        Label.handoff, Label.enqueue 2, Label.runnerStart, Label.runnerReturn,
        Label.closeDone] with
  | some s =>
    match h2 : executeSync s [Label.enqueue 3, Label.invoke, Label.bodyReturn none,
        Label.relayDone, Label.execDone] with
    | some s2 =>
      have hw := shutdown_after_close _ _ s s2 h h2 (by cases h; rfl)
      ⟨s, s2, rfl, h2, by cases h; rfl, by cases h; rfl, by cases h; rfl,
        by cases h; cases h2; rfl, by cases h; cases h2; rfl,
        hw.1.trans (by cases h; rfl), by cases h; cases h2; rfl, hw.2.1⟩
    | none => absurd h2 (by cases h; decide)
  | none => absurd h (by decide)

end MainThread
